import Mathlib

/-!
Verification of the polygon-repair pipeline of `repair_gdf_jc_v1_2.py`
(repository InnovativeInventor/vtd-migration).

The geometry is embedded discretely: the plane region enclosed by all input
boundaries is a finite set `U` of atomic cells (`Finset ℕ`), and every
polygon geometry is the set of cells it covers.  The arrangement produced by
`unary_union` of the boundaries followed by `polygonize` is embedded exactly:
two cells land in the same piece iff the same set of input polygons contains
them, which is precisely what step (3) of the source's algorithm computes with
representative points.  The calls the source makes into shapely that have no
cell-level meaning (boundary-intersection lengths, component counts, STRtree
queries, `shapely.ops.split`) are modelled as oracle parameters collected in
`Orc`; every theorem quantifies over the oracles, adding only the contracts
that the corresponding shapely primitives guarantee.
-/

set_option maxHeartbeats 1000000

namespace VtdMigration

namespace Cells

/-- A row of `pieces_df`: one atomic cell of the boundary arrangement together
with its `polygon indices` column (the set of original polygons whose interior
contains its representative point). -/
structure Piece where
  cells : Finset ℕ
  owners : List ℕ
deriving DecidableEq

/-- Oracles standing for the shapely primitives used by the source.  Each field
is named after the call site it models:
* `ncompO` — `num_components_jc` applied to a current geometry;
* `isMultiO` — the test `x.type != "Polygon"`;
* `compsO` — indexing the components of a (multi)polygon;
* `interEmptyO`/`interLenO` — `geom.intersection(piece).is_empty` / `.length`;
* `bndEmptyO`/`bndLenO` — `(a.boundary).intersection(b.boundary).is_empty` / `.length`;
* `queryO` — an `STRtree` query: first argument is the snapshot of geometries
  the tree was built from, second the query geometry, result the candidate
  polygon indices;
* `pQueryO` — the `STRtree` query against the overlap pieces of one level;
* `hbO` — one hole's rows of `intersections_jc(holes_df, geometries_df)` after
  `linemerge` and `explode`: a list of (target polygon, component length);
* `pfO` — the result triple of `partial_fill_data_jc`
  (`poly_to_add_to`, `piece_to_connect`, `new_holes`). -/
structure Orc where
  ncompO : Finset ℕ → ℕ
  isMultiO : Finset ℕ → Bool
  compsO : Finset ℕ → List (Finset ℕ)
  interEmptyO : Finset ℕ → Finset ℕ → Bool
  interLenO : Finset ℕ → Finset ℕ → ℚ
  bndEmptyO : Finset ℕ → Finset ℕ → Bool
  bndLenO : Finset ℕ → Finset ℕ → ℚ
  queryO : (ℕ → Finset ℕ) → Finset ℕ → List ℕ
  pQueryO : Finset ℕ → Piece → Bool
  hbO : Finset ℕ → (ℕ → Finset ℕ) → List (ℕ × ℚ)
  pfO : Finset ℕ → List (ℕ × ℚ) → Option ℕ × Finset ℕ × List (Finset ℕ)

/-- The original polygons containing cell `c`, in index order: the row-by-row
point containment test of `building_blocks_jc` (lines 364-370 of the source)
building the `polygon indices` set of a piece. -/
def owners_of (idx : List ℕ) (poly : ℕ → Finset ℕ) (c : ℕ) : List ℕ :=
  idx.filter (fun i => decide (c ∈ poly i))

/-- The pieces produced by `unary_union` of all boundaries plus `polygonize`:
cells of the enclosed region `U` are grouped by the exact set of input
polygons containing them; each owner set occurring on `U` yields one piece. -/
def pieces_of (idx : List ℕ) (poly : ℕ → Finset ℕ) (U : List ℕ) : List Piece :=
  ((U.map (owners_of idx poly)).dedup).map
    (fun s => ⟨(U.filter (fun c => decide (owners_of idx poly c = s))).toFinset, s⟩)

/-- `building_blocks_jc` (source lines 333-400): build the pieces, then group
them into the overlap tower (degrees 1..max) and the degree-0 holes. -/
def building_blocks_jc (idx : List ℕ) (poly : ℕ → Finset ℕ) (U : List ℕ) :
    List (List Piece) × List Piece :=
  let pieces := pieces_of idx poly U
  let maxDeg := (pieces.map (fun p => p.owners.length)).foldr max 0
  ((List.range maxDeg).map (fun k => pieces.filter (fun p => decide (p.owners.length = k + 1))),
   pieces.filter (fun p => decide (p.owners.length = 0)))

/-- `sorted(shared_perimeters, key=...)[-1]`: Python's stable ascending sort
followed by taking the last element returns the element with the largest key,
and among ties the one occurring latest in the original list. -/
def pickMaxLast (l : List (ℕ × ℚ)) : Option (ℕ × ℚ) :=
  match l with
  | [] => none
  | x :: xs => some (xs.foldl (fun acc y => if acc.2 ≤ y.2 then y else acc) x)

/-- `geometries_df["geometry"][i] = unary_union([geometries_df["geometry"][i], s])`
in the cell model: union `s` into the geometry at index `i`. -/
def addTo (geoms : ℕ → Finset ℕ) (i : ℕ) (s : Finset ℕ) : ℕ → Finset ℕ :=
  fun j => if j = i then geoms j ∪ s else geoms j

/-- `list(overlap_tower[0]["polygon indices"][ind])[0]`: the sole owner of a
degree-1 piece. -/
def soleOwner (p : Piece) : ℕ :=
  p.owners.headI

/-- The order-1 pass of `reconstruct_from_overlap_tower_jc` (lines 423-426):
every degree-1 piece is unioned into the polygon it came from. -/
def assignOrder1 (geoms : ℕ → Finset ℕ) : List Piece → (ℕ → Finset ℕ)
  | [] => geoms
  | p :: ps => assignOrder1 (addTo geoms (soleOwner p) p.cells) ps

/-- The inner grab loop (lines 468-480): a disconnected-by-refinement polygon
`g` walks the candidate pieces of the current level and grabs every piece that
lists it as an owner and meets its current geometry along positive length,
until its component count returns to the original value.  State:
(geometry column of `geometries_disconnected_df`, unused pieces, finished flag). -/
def grabPieces (orc : Orc) (norig : ℕ) (g : ℕ) :
    List Piece → (ℕ → Finset ℕ) → List Piece → Bool →
    ((ℕ → Finset ℕ) × List Piece × Bool)
  | [], dg, un, fin => (dg, un, fin)
  | p :: ps, dg, un, fin =>
    if fin = false ∧ g ∈ p.owners ∧ orc.interEmptyO (dg g) p.cells = false
        ∧ 0 < orc.interLenO (dg g) p.cells then
      let dg1 := addTo dg g p.cells
      grabPieces orc norig g ps dg1 (un.erase p) (decide (orc.ncompO (dg1 g) = norig))
    else
      grabPieces orc norig g ps dg un fin

/-- State threaded through one level of the reconstruction: `geoms` is
`geometries_df`, `dgeoms` the geometry column of the filtered copy
`geometries_disconnected_df` made at line 449 (the source mutates the copy and
syncs single rows back at line 482, so the two columns can disagree),
`unused` is `overlaps_df_unused_indices`, `disconnected` the index list of
`geometries_disconnected_df`. -/
structure RcSt where
  geoms : ℕ → Finset ℕ
  dgeoms : ℕ → Finset ℕ
  unused : List Piece
  disconnected : List ℕ

/-- The disconnected-first pass of one level (lines 459-486).  It iterates
over the snapshot of the disconnected index list taken when the loop starts;
the Python iteration order of `list(set(...) & set(...))` at line 463 is
unspecified, so the embedding keeps the order of the unused list. -/
def discPass (orc : Orc) (norig : ℕ → ℕ) : List ℕ → RcSt → RcSt
  | [], st => st
  | g :: gs, st =>
    let cands := st.unused.filter (fun p => orc.pQueryO (st.dgeoms g) p)
    let r := grabPieces orc (norig g) g cands st.dgeoms st.unused false
    let geoms1 : ℕ → Finset ℕ := fun j => if j = g then r.1 g else st.geoms j
    let disc1 := if r.2.2 then st.disconnected.erase g else st.disconnected
    discPass orc norig gs ⟨geoms1, r.1, r.2.1, disc1⟩

/-- The largest-shared-perimeter pass of one level (lines 495-517).  Each
remaining piece is assigned to the candidate owner with the largest boundary
intersection; when no candidate at all is found the source reaches
`print("Couldn't find a polygon to glue ...", multi_index, ...)` where
`multi_index` is an unbound name, so the run dies with a `NameError`. -/
def mainPass (orc : Orc) (treeGeoms : ℕ → Finset ℕ) :
    List Piece → (ℕ → Finset ℕ) → Except String (ℕ → Finset ℕ)
  | [], geoms => .ok geoms
  | p :: ps, geoms =>
    let cands := (orc.queryO treeGeoms p.cells).filter
        (fun g => decide (g ∈ p.owners) && !(orc.bndEmptyO p.cells (geoms g)))
    let shared := cands.map (fun g => (g, orc.bndLenO p.cells (geoms g)))
    match pickMaxLast shared with
    | some m => mainPass orc treeGeoms ps (addTo geoms m.1 p.cells)
    | none => .error "NameError: name multi_index is not defined"

/-- The loop over overlap levels 2..max (lines 451-517): first the
disconnected-first pass, then the largest-shared-perimeter pass with an
`STRtree` built from the state `geometries_df` reached after the former. -/
def levelLoop (orc : Orc) (norig : ℕ → ℕ) :
    List (List Piece) → ((ℕ → Finset ℕ) × (ℕ → Finset ℕ) × List ℕ) →
    Except String ((ℕ → Finset ℕ) × (ℕ → Finset ℕ) × List ℕ)
  | [], s => .ok s
  | lvl :: lvls, s =>
    let st1 := discPass orc norig s.2.2 ⟨s.1, s.2.1, lvl, s.2.2⟩
    match mainPass orc st1.geoms st1.unused st1.geoms with
    | .error e => .error e
    | .ok geoms2 => levelLoop orc norig lvls (geoms2, st1.dgeoms, st1.disconnected)

/-- `reconstruct_from_overlap_tower_jc` (lines 405-525): empty all geometries,
assign the degree-1 pieces, record original and refined component counts,
snapshot the disconnected-by-refinement polygons into a filtered copy, then
fold the higher levels.  An empty tower dies at `overlap_tower[0]`. -/
def reconstruct_from_overlap_tower_jc (orc : Orc) (idx : List ℕ)
    (origGeoms : ℕ → Finset ℕ) (tower : List (List Piece)) :
    Except String (ℕ → Finset ℕ) :=
  match tower with
  | [] => .error "IndexError: the overlap tower is empty"
  | lvl1 :: higher =>
    let geoms1 := assignOrder1 (fun _ => ∅) lvl1
    let norig := fun i => orc.ncompO (origGeoms i)
    let disc0 := idx.filter (fun i => decide (norig i < orc.ncompO (geoms1 i)))
    match levelLoop orc norig higher (geoms1, geoms1, disc0) with
    | .error e => .error e
    | .ok s => .ok s.1

/-- State of one round of `close_gaps_jc`: the mutating geometry column, the
holes not dropped so far this round, the `new_holes` accumulator, and the
`activity_this_round` flag. -/
structure CgRound where
  geoms : ℕ → Finset ℕ
  kept : List (Finset ℕ)
  newHoles : List (Finset ℕ)
  activity : Bool

/-- The body of the per-hole loop of `close_gaps_jc` (lines 557-592), folded
over the snapshot of `holes_df.index` with each hole's boundary rows as
computed at the start of the round.  A hole touching at most 3 distinct
polygons is merged whole into the target with the largest current shared
boundary (an empty boundary list dies at `sorted([])[-1]`); otherwise
`partial_fill_data_jc` decides, and `activity_this_round` is set only when
the branch taken produces it (line 577, and line 592 inside the append loop). -/
def close_gaps_round (orc : Orc) :
    List (Finset ℕ × List (ℕ × ℚ)) → CgRound → Except String CgRound
  | [], st => .ok st
  | (h, comps) :: rest, st =>
    if (comps.map Prod.fst).dedup.length ≤ 3 then
      let shared := comps.map (fun b => (b.1, orc.bndLenO h (st.geoms b.1)))
      match pickMaxLast shared with
      | none => .error "IndexError: list index out of range"
      | some m =>
        close_gaps_round orc rest ⟨addTo st.geoms m.1 h, st.kept, st.newHoles, true⟩
    else
      let r := orc.pfO h comps
      let st1 : CgRound :=
        match r.1 with
        | some g => ⟨addTo st.geoms g r.2.1, st.kept, st.newHoles, st.activity⟩
        | none => ⟨st.geoms, st.kept ++ [h], st.newHoles, st.activity⟩
      close_gaps_round orc rest
        ⟨st1.geoms, st1.kept, st1.newHoles ++ r.2.2, st1.activity || !r.2.2.isEmpty⟩

/-- The `while fill_complete == False` loop of `close_gaps_jc` (lines 539-600),
with explicit fuel since the source's termination is not structural: each round
recomputes every hole's boundary rows against the geometry state at the start
of the round, runs the per-hole fold, then either appends the new holes and
repeats, or stops at the first round without activity. -/
def close_gaps_loop (orc : Orc) : ℕ → (ℕ → Finset ℕ) → List (Finset ℕ) →
    Except String (ℕ → Finset ℕ)
  | 0, _, _ => .error "fuel exhausted"
  | fuel + 1, geoms, holes =>
    let withComps := holes.map (fun h => (h, orc.hbO h geoms))
    match close_gaps_round orc withComps ⟨geoms, [], [], false⟩ with
    | .error e => .error e
    | .ok st =>
      if st.activity then close_gaps_loop orc fuel st.geoms (st.kept ++ st.newHoles)
      else .ok st.geoms

/-- `close_gaps_jc` (lines 532-603) on the pieces of degree 0. -/
def close_gaps_jc (orc : Orc) (fuel : ℕ) (geoms : ℕ → Finset ℕ)
    (holes : List Piece) : Except String (ℕ → Finset ℕ) :=
  close_gaps_loop orc fuel geoms (holes.map Piece.cells)

/-- Python's stable ascending insertion used to model
`sorted(component_areas, key=lambda tup: tup[1])`: a later element is placed
after earlier elements with an equal key. -/
def insertAsc (x : ℕ × ℚ) : List (ℕ × ℚ) → List (ℕ × ℚ)
  | [] => [x]
  | y :: ys => if x.2 < y.2 then x :: y :: ys else y :: insertAsc x ys

/-- Stable ascending sort by the second component. -/
def sortAsc (l : List (ℕ × ℚ)) : List (ℕ × ℚ) :=
  l.foldl (fun acc x => insertAsc x acc) []

/-- The fragment loop of the disconnection-repair stage
(`for i in range(excess)`, lines 283-298): the i-th smallest component of the
over-disconnected polygon `g` is peeled off when its area is below 0.01% of
`big_area` and unioned into the neighbour with the largest shared perimeter
found through the (stage-start) spatial index; no neighbour at all dies at
`sorted([])[-1]`.  State: (geometry column, `component_num_list`). -/
def fragLoop (orc : Orc) (treeGeoms : ℕ → Finset ℕ) (g : ℕ)
    (comps : List (Finset ℕ)) (bigArea : ℚ) :
    List (ℕ × ℚ) → ((ℕ → Finset ℕ) × List ℕ) → Except String ((ℕ → Finset ℕ) × List ℕ)
  | [], s => .ok s
  | ca :: rest, (geoms, kept) =>
    if ca.2 < bigArea * (1 / 10000) then
      let frag := comps.getD ca.1 ∅
      let cands := (orc.queryO treeGeoms frag).filter
          (fun j => decide (j ≠ g) && !(orc.bndEmptyO frag (geoms j)))
      let shared := cands.map (fun j => (j, orc.bndLenO frag (geoms j)))
      match pickMaxLast shared with
      | none => .error "IndexError: list index out of range"
      | some m =>
        fragLoop orc treeGeoms g comps bigArea rest (addTo geoms m.1 frag, kept.erase ca.1)
    else
      fragLoop orc treeGeoms g comps bigArea rest (geoms, kept)

/-- Disconnection repair for one over-disconnected polygon `g`
(lines 270-306): sort its components by area, run the fragment loop over the
`excess` smallest ones, then rebuild `g` from the components left in
`component_num_list` — or, when none is left, leave the geometry unchanged and
print the line-306 warning. -/
def disc_block (orc : Orc) (treeGeoms origGeoms : ℕ → Finset ℕ) (g : ℕ)
    (geoms : ℕ → Finset ℕ) (warns : List ℕ) :
    Except String ((ℕ → Finset ℕ) × List ℕ) :=
  let comps := orc.compsO (geoms g)
  let excess := orc.ncompO (geoms g) - orc.ncompO (origGeoms g)
  let sortedAreas := sortAsc (comps.enum.map (fun ca => (ca.1, ((ca.2.card : ℚ)))))
  let bigArea := max ((geoms g).card : ℚ) ((origGeoms g).card : ℚ)
  match fragLoop orc treeGeoms g comps bigArea (sortedAreas.take excess)
      (geoms, List.range comps.length) with
  | .error e => .error e
  | .ok s =>
    match s.2 with
    | [] => .ok (s.1, warns ++ [g])
    | [c] => .ok (fun j => if j = g then comps.getD c ∅ else s.1 j, warns)
    | l => .ok (fun j => if j = g then l.foldr (fun c acc => comps.getD c ∅ ∪ acc) ∅
                 else s.1 j, warns)

/-- The loop over all polygons that got more disconnected (lines 270-306). -/
def disc_gloop (orc : Orc) (treeGeoms origGeoms : ℕ → Finset ℕ) :
    List ℕ → ((ℕ → Finset ℕ) × List ℕ) → Except String ((ℕ → Finset ℕ) × List ℕ)
  | [], s => .ok s
  | g :: gs, s =>
    match disc_block orc treeGeoms origGeoms g s.1 s.2 with
    | .error e => .error e
    | .ok s1 => disc_gloop orc treeGeoms origGeoms gs s1

/-- The disconnection-repair stage inlined in `repair_gdf_jc`
(lines 255-315): find the polygons whose geometry is not a single polygon and
whose component count exceeds the original, repair each with the spatial index
snapshot taken before the loop, then run the residual check of lines 310-315,
which warns about every index still over-disconnected.  Returns the repaired
geometry column and the list of warned indices. -/
def disc_repair (orc : Orc) (idx : List ℕ) (origGeoms geoms : ℕ → Finset ℕ) :
    Except String ((ℕ → Finset ℕ) × List ℕ) :=
  let worse := (idx.filter (fun i => orc.isMultiO (geoms i))).filter
      (fun i => decide (orc.ncompO (origGeoms i) < orc.ncompO (geoms i)))
  match disc_gloop orc geoms origGeoms worse (geoms, []) with
  | .error e => .error e
  | .ok s =>
    let warns2 := idx.filter
        (fun i => orc.isMultiO (s.1 i) && decide (orc.ncompO (origGeoms i) < orc.ncompO (s.1 i)))
    .ok (s.1, s.2 ++ warns2)

/-- `repair_gdf_jc` (lines 219-324) in the cell model, with
`min_rook_length = None` so that the optional rook-to-queen stage is skipped;
flattening 3-D coordinates to 2-D is the identity here.  Stage order as in the
source: `building_blocks_jc`, `reconstruct_from_overlap_tower_jc`, then —
when `close_gaps` — `close_gaps_jc`, then the disconnection-repair stage. -/
def repair_gdf_jc (orc : Orc) (idx : List ℕ) (poly : ℕ → Finset ℕ) (U : List ℕ)
    (close_gaps : Bool) (fuel : ℕ) : Except String ((ℕ → Finset ℕ) × List ℕ) :=
  let bb := building_blocks_jc idx poly U
  match reconstruct_from_overlap_tower_jc orc idx poly bb.1 with
  | .error e => .error e
  | .ok g1 =>
    match (if close_gaps then close_gaps_jc orc fuel g1 bb.2 else .ok g1) with
    | .error e => .error e
    | .ok g2 => disc_repair orc idx poly g2

/-- Concrete oracle realizing the geometry of two exactly coincident unit
polygons (both equal to cell 0): every accumulated geometry during
reconstruction is empty, so boundary intersections are empty, the `STRtree`
over empty geometries answers no query, and component counts are 0 or 1. -/
def orcEx : Orc where
  ncompO := fun s => if s = ∅ then 0 else 1
  isMultiO := fun _ => false
  compsO := fun s => if s = ∅ then [] else [s]
  interEmptyO := fun a b => decide (a ∩ b = ∅)
  interLenO := fun _ _ => 0
  bndEmptyO := fun _ _ => true
  bndLenO := fun _ _ => 0
  queryO := fun _ _ => []
  pQueryO := fun _ _ => false
  hbO := fun _ _ => []
  pfO := fun h _ => (none, h, [])

lemma foldl_max_choice (xs : List (ℕ × ℚ)) (x : ℕ × ℚ) :
    xs.foldl (fun acc y => if acc.2 ≤ y.2 then y else acc) x = x ∨
      xs.foldl (fun acc y => if acc.2 ≤ y.2 then y else acc) x ∈ xs := by
  induction xs generalizing x with
  | nil => exact Or.inl rfl
  | cons y ys ih =>
    simp only [List.foldl_cons]
    by_cases hxy : x.2 ≤ y.2
    · simp only [if_pos hxy]
      rcases ih y with h1 | h1
      · exact Or.inr (by simp [h1])
      · exact Or.inr (List.mem_cons_of_mem _ h1)
    · simp only [if_neg hxy]
      rcases ih x with h1 | h1
      · exact Or.inl h1
      · exact Or.inr (List.mem_cons_of_mem _ h1)

lemma foldl_max_ge_init (xs : List (ℕ × ℚ)) (x : ℕ × ℚ) :
    x.2 ≤ (xs.foldl (fun acc y => if acc.2 ≤ y.2 then y else acc) x).2 := by
  induction xs generalizing x with
  | nil => exact le_rfl
  | cons y ys ih =>
    simp only [List.foldl_cons]
    by_cases hxy : x.2 ≤ y.2
    · simp only [if_pos hxy]
      exact le_trans hxy (ih y)
    · simp only [if_neg hxy]
      exact ih x

lemma foldl_max_ge_mem (xs : List (ℕ × ℚ)) (x : ℕ × ℚ) :
    ∀ z ∈ xs, z.2 ≤ (xs.foldl (fun acc y => if acc.2 ≤ y.2 then y else acc) x).2 := by
  induction xs generalizing x with
  | nil => intro z hz; cases hz
  | cons y ys ih =>
    intro z hz
    simp only [List.foldl_cons]
    rcases List.mem_cons.mp hz with hz | hz
    · subst hz
      by_cases hxy : x.2 ≤ z.2
      · simp only [if_pos hxy]
        exact foldl_max_ge_init ys z
      · simp only [if_neg hxy]
        exact le_trans (le_of_not_le hxy) (foldl_max_ge_init ys x)
    · by_cases hxy : x.2 ≤ y.2
      · simp only [if_pos hxy]
        exact ih y z hz
      · simp only [if_neg hxy]
        exact ih x z hz

/-- `sorted(l, key=...)[-1]` on a nonempty list returns an element of the list
whose key is maximal. -/
lemma pickMaxLast_spec (l : List (ℕ × ℚ)) (hne : l ≠ []) :
    ∃ m, pickMaxLast l = some m ∧ m ∈ l ∧ ∀ x ∈ l, x.2 ≤ m.2 := by
  match l with
  | [] => exact absurd rfl hne
  | x :: xs =>
    refine ⟨xs.foldl (fun acc y => if acc.2 ≤ y.2 then y else acc) x, ?_, ?_, ?_⟩
    · rfl
    · rcases foldl_max_choice xs x with h | h
      · rw [h]; exact List.mem_cons_self x xs
      · exact List.mem_cons_of_mem _ h
    · intro z hz
      rcases List.mem_cons.mp hz with hz | hz
      · subst hz; exact foldl_max_ge_init xs z
      · exact foldl_max_ge_mem xs x z hz

/-- Total area of the geometry column over the dataset index, in cells. -/
def sumCard (idx : List ℕ) (geoms : ℕ → Finset ℕ) : ℕ :=
  (idx.map (fun i => (geoms i).card)).sum

lemma addTo_self (geoms : ℕ → Finset ℕ) (i : ℕ) (s : Finset ℕ) :
    addTo geoms i s i = geoms i ∪ s := by
  simp [addTo]

lemma addTo_ne (geoms : ℕ → Finset ℕ) (i : ℕ) (s : Finset ℕ) {j : ℕ} (h : j ≠ i) :
    addTo geoms i s j = geoms j := by
  simp [addTo, h]

/-- The separation invariant maintained through the reconstruction: the
not-yet-assigned cell sets (`avail`) are pairwise disjoint and disjoint from
every accumulated geometry, in both the main geometry column (`geoms`) and the
geometry column of the filtered copy `geometries_disconnected_df` (`dgeoms`),
and distinct rows of either column are pairwise disjoint. -/
structure Inv (avail : List (Finset ℕ)) (geoms dgeoms : ℕ → Finset ℕ) : Prop where
  availPW : avail.Pairwise Disjoint
  availG : ∀ s ∈ avail, ∀ i, Disjoint s (geoms i)
  availD : ∀ s ∈ avail, ∀ i, Disjoint s (dgeoms i)
  geomsPW : ∀ i j, i ≠ j → Disjoint (geoms i) (geoms j)
  dgG : ∀ i j, i ≠ j → Disjoint (dgeoms i) (geoms j)
  dgPW : ∀ i j, i ≠ j → Disjoint (dgeoms i) (dgeoms j)

lemma pairwise_disjoint_erase_mem {s t : Finset ℕ} :
    ∀ {l : List (Finset ℕ)}, l.Pairwise Disjoint → s ∈ l → t ∈ l.erase s →
      Disjoint s t := by
  intro l
  induction l with
  | nil => intro _ hs _; cases hs
  | cons a l ih =>
    intro hp hs ht
    by_cases has : a = s
    · subst has
      rw [List.erase_cons_head] at ht
      exact List.rel_of_pairwise_cons hp ht
    · rw [List.erase_cons_tail (by simpa using has)] at ht
      rcases List.mem_cons.mp ht with ht | ht
      · subst ht
        rcases List.mem_cons.mp hs with hs | hs
        · exact absurd hs.symm has
        · exact (List.rel_of_pairwise_cons hp hs).symm
      · rcases List.mem_cons.mp hs with hs | hs
        · exact absurd hs.symm has
        · exact ih (List.pairwise_cons.mp hp).2 hs ht

lemma Inv.assign {avail : List (Finset ℕ)} {geoms dgeoms : ℕ → Finset ℕ}
    (inv : Inv avail geoms dgeoms) {s : Finset ℕ} (hs : s ∈ avail) (i : ℕ) :
    Inv (avail.erase s) (addTo geoms i s) dgeoms := by
  refine ⟨inv.availPW.sublist (List.erase_sublist s avail), ?_, ?_, ?_, ?_, inv.dgPW⟩
  · intro u hu j
    have humem := List.mem_of_mem_erase hu
    by_cases hj : j = i
    · subst hj
      rw [addTo_self]
      exact Finset.disjoint_union_right.mpr
        ⟨inv.availG u humem j, (pairwise_disjoint_erase_mem inv.availPW hs hu).symm⟩
    · rw [addTo_ne _ _ _ hj]
      exact inv.availG u humem j
  · intro u hu j
    exact inv.availD u (List.mem_of_mem_erase hu) j
  · intro a b hab
    by_cases ha : a = i
    · subst ha
      rw [addTo_self, addTo_ne _ _ _ (Ne.symm hab)]
      exact Finset.disjoint_union_left.mpr ⟨inv.geomsPW a b hab, inv.availG s hs b⟩
    · rw [addTo_ne _ _ _ ha]
      by_cases hb : b = i
      · subst hb
        rw [addTo_self]
        exact Finset.disjoint_union_right.mpr ⟨inv.geomsPW a b hab, (inv.availG s hs a).symm⟩
      · rw [addTo_ne _ _ _ hb]
        exact inv.geomsPW a b hab
  · intro a b hab
    by_cases hb : b = i
    · subst hb
      rw [addTo_self]
      exact Finset.disjoint_union_right.mpr ⟨inv.dgG a b hab, (inv.availD s hs a).symm⟩
    · rw [addTo_ne _ _ _ hb]
      exact inv.dgG a b hab

lemma Inv.grab {avail : List (Finset ℕ)} {geoms dgeoms : ℕ → Finset ℕ}
    (inv : Inv avail geoms dgeoms) {s : Finset ℕ} (hs : s ∈ avail) (g : ℕ) :
    Inv (avail.erase s) geoms (addTo dgeoms g s) := by
  refine ⟨inv.availPW.sublist (List.erase_sublist s avail), ?_, ?_, inv.geomsPW, ?_, ?_⟩
  · intro u hu j
    exact inv.availG u (List.mem_of_mem_erase hu) j
  · intro u hu j
    have humem := List.mem_of_mem_erase hu
    by_cases hj : j = g
    · subst hj
      rw [addTo_self]
      exact Finset.disjoint_union_right.mpr
        ⟨inv.availD u humem j, (pairwise_disjoint_erase_mem inv.availPW hs hu).symm⟩
    · rw [addTo_ne _ _ _ hj]
      exact inv.availD u humem j
  · intro a b hab
    by_cases ha : a = g
    · subst ha
      rw [addTo_self]
      exact Finset.disjoint_union_left.mpr ⟨inv.dgG a b hab, inv.availG s hs b⟩
    · rw [addTo_ne _ _ _ ha]
      exact inv.dgG a b hab
  · intro a b hab
    by_cases ha : a = g
    · subst ha
      rw [addTo_self, addTo_ne _ _ _ (Ne.symm hab)]
      exact Finset.disjoint_union_left.mpr ⟨inv.dgPW a b hab, inv.availD s hs b⟩
    · rw [addTo_ne _ _ _ ha]
      by_cases hb : b = g
      · subst hb
        rw [addTo_self]
        exact Finset.disjoint_union_right.mpr ⟨inv.dgPW a b hab, (inv.availD s hs a).symm⟩
      · rw [addTo_ne _ _ _ hb]
        exact inv.dgPW a b hab

lemma Inv.sync {avail : List (Finset ℕ)} {geoms dgeoms : ℕ → Finset ℕ}
    (inv : Inv avail geoms dgeoms) (g : ℕ) :
    Inv avail (fun j => if j = g then dgeoms g else geoms j) dgeoms := by
  refine ⟨inv.availPW, ?_, inv.availD, ?_, ?_, inv.dgPW⟩
  · intro u hu j
    by_cases hj : j = g
    · simpa [hj] using inv.availD u hu g
    · simpa [hj] using inv.availG u hu j
  · intro a b hab
    by_cases ha : a = g
    · subst ha
      rw [if_pos rfl, if_neg (Ne.symm hab)]
      exact inv.dgG a b hab
    · rw [if_neg ha]
      by_cases hb : b = g
      · subst hb
        rw [if_pos rfl]
        exact (inv.dgG b a (Ne.symm hab)).symm
      · rw [if_neg hb]
        exact inv.geomsPW a b hab
  · intro a b hab
    by_cases hb : b = g
    · subst hb
      rw [if_pos rfl]
      exact inv.dgPW a b hab
    · rw [if_neg hb]
      exact inv.dgG a b hab

/-- At line 449 the source snapshots `geometries_df` into the filtered copy
`geometries_disconnected_df`; taking `dgeoms := geoms` preserves the invariant. -/
lemma Inv.copy {avail : List (Finset ℕ)} {geoms dgeoms : ℕ → Finset ℕ}
    (inv : Inv avail geoms dgeoms) : Inv avail geoms geoms :=
  ⟨inv.availPW, inv.availG, inv.availG, inv.geomsPW, inv.geomsPW, inv.geomsPW⟩

lemma mem_pieces_of {idx : List ℕ} {poly : ℕ → Finset ℕ} {U : List ℕ} {p : Piece}
    (hp : p ∈ pieces_of idx poly U) :
    p.owners ∈ (U.map (owners_of idx poly)).dedup ∧
      p.cells = (U.filter (fun c => decide (owners_of idx poly c = p.owners))).toFinset := by
  rcases List.mem_map.mp hp with ⟨s, hs, rfl⟩
  exact ⟨hs, rfl⟩

lemma mem_cells_pieces_of {idx : List ℕ} {poly : ℕ → Finset ℕ} {U : List ℕ} {p : Piece}
    (hp : p ∈ pieces_of idx poly U) {c : ℕ} :
    c ∈ p.cells ↔ c ∈ U ∧ owners_of idx poly c = p.owners := by
  rw [(mem_pieces_of hp).2]
  simp [List.mem_filter]

lemma pieces_of_cells_nonempty {idx : List ℕ} {poly : ℕ → Finset ℕ} {U : List ℕ} {p : Piece}
    (hp : p ∈ pieces_of idx poly U) : p.cells.Nonempty := by
  have hs := (mem_pieces_of hp).1
  have hs2 : p.owners ∈ U.map (owners_of idx poly) := List.mem_dedup.mp hs
  rcases List.mem_map.mp hs2 with ⟨c, hc, hco⟩
  exact ⟨c, (mem_cells_pieces_of hp).mpr ⟨hc, hco⟩⟩

lemma pieces_of_disjoint_of_ne_owners {idx : List ℕ} {poly : ℕ → Finset ℕ} {U : List ℕ}
    {p q : Piece} (hp : p ∈ pieces_of idx poly U) (hq : q ∈ pieces_of idx poly U)
    (hne : p.owners ≠ q.owners) : Disjoint p.cells q.cells := by
  rw [Finset.disjoint_left]
  intro c hcp hcq
  exact hne (((mem_cells_pieces_of hp).mp hcp).2.symm.trans ((mem_cells_pieces_of hq).mp hcq).2)

lemma pieces_of_map_owners {idx : List ℕ} {poly : ℕ → Finset ℕ} {U : List ℕ} :
    (pieces_of idx poly U).map Piece.owners = (U.map (owners_of idx poly)).dedup := by
  rw [pieces_of, List.map_map]
  exact List.map_id ((U.map (owners_of idx poly)).dedup)

lemma pieces_of_nodup_owners {idx : List ℕ} {poly : ℕ → Finset ℕ} {U : List ℕ} :
    ((pieces_of idx poly U).map Piece.owners).Nodup := by
  rw [pieces_of_map_owners]
  exact List.nodup_dedup _

lemma pieces_of_nodup_cells {idx : List ℕ} {poly : ℕ → Finset ℕ} {U : List ℕ} :
    ((pieces_of idx poly U).map Piece.cells).Nodup := by
  have hnd : (pieces_of idx poly U).Nodup :=
    (@pieces_of_nodup_owners idx poly U).of_map
  refine List.Nodup.map_on ?_ hnd
  intro p hp q hq hcells
  by_cases how : p.owners = q.owners
  · cases p; cases q
    simp_all
  · exfalso
    rcases pieces_of_cells_nonempty hp with ⟨c, hc⟩
    exact (Finset.disjoint_left.mp (pieces_of_disjoint_of_ne_owners hp hq how) hc) (hcells ▸ hc)

lemma map_cells_erase {p : Piece} :
    ∀ {un : List Piece}, ((un.map Piece.cells).Nodup) → p ∈ un →
      (un.erase p).map Piece.cells = (un.map Piece.cells).erase p.cells := by
  intro un
  induction un with
  | nil => intro _ hp; cases hp
  | cons q l ih =>
    intro hnd hp
    by_cases hqp : q = p
    · subst hqp
      rw [List.erase_cons_head, List.map_cons, List.erase_cons_head]
    · have hpl : p ∈ l := by
        rcases List.mem_cons.mp hp with h | h
        · exact absurd h.symm hqp
        · exact h
      have hqc : q.cells ≠ p.cells := by
        intro hc
        have : q.cells ∈ l.map Piece.cells := hc ▸ List.mem_map_of_mem Piece.cells hpl
        rw [List.map_cons] at hnd
        exact (List.nodup_cons.mp hnd).1 this
      rw [List.erase_cons_tail (by simpa using hqp), List.map_cons, List.map_cons,
        List.erase_cons_tail (by simpa using hqc), ih (by rw [List.map_cons] at hnd; exact (List.nodup_cons.mp hnd).2) hpl]

/-- The order-1 pass consumes its pieces from the available pool and preserves
the separation invariant. -/
lemma assignOrder1_inv :
    ∀ (ps : List Piece) (rest : List (Finset ℕ)) (geoms dgeoms : ℕ → Finset ℕ),
      Inv (ps.map Piece.cells ++ rest) geoms dgeoms →
      Inv rest (assignOrder1 geoms ps) dgeoms := by
  intro ps
  induction ps with
  | nil => intro rest geoms dgeoms inv; exact inv
  | cons p ps ih =>
    intro rest geoms dgeoms inv
    rw [assignOrder1]
    refine ih rest _ dgeoms ?_
    have h1 := inv.assign (s := p.cells) (by simp) (soleOwner p)
    rwa [List.map_cons, List.cons_append, List.erase_cons_head] at h1

/-- The grab loop of a disconnected polygon consumes grabbed pieces from the
unused list and keeps the separation invariant with the remaining pieces. -/
lemma grabPieces_inv (orc : Orc) (norig g : ℕ) :
    ∀ (cands : List Piece) (dg geoms : ℕ → Finset ℕ) (un : List Piece)
      (rest : List (Finset ℕ)) (fin : Bool),
      (un.map Piece.cells).Nodup → cands.Nodup → (∀ p ∈ cands, p ∈ un) →
      Inv (un.map Piece.cells ++ rest) geoms dg →
      Inv (((grabPieces orc norig g cands dg un fin).2.1).map Piece.cells ++ rest) geoms
          (grabPieces orc norig g cands dg un fin).1 ∧
        (((grabPieces orc norig g cands dg un fin).2.1).map Piece.cells).Nodup := by
  intro cands
  induction cands with
  | nil =>
    intro dg geoms un rest fin hnd _ _ inv
    exact ⟨inv, hnd⟩
  | cons p ps ih =>
    intro dg geoms un rest fin hnd hcnd hcin inv
    rw [grabPieces]
    by_cases hC : fin = false ∧ g ∈ p.owners ∧ orc.interEmptyO (dg g) p.cells = false
        ∧ 0 < orc.interLenO (dg g) p.cells
    · rw [if_pos hC]
      have hpun : p ∈ un := hcin p (by simp)
      have hmape : ((un.erase p).map Piece.cells) = (un.map Piece.cells).erase p.cells :=
        map_cells_erase hnd hpun
      refine ih _ geoms (un.erase p) rest _ ?_ (List.nodup_cons.mp hcnd).2 ?_ ?_
      · rw [hmape]
        exact hnd.erase _
      · intro q hq
        have hqun : q ∈ un := hcin q (List.mem_cons_of_mem _ hq)
        have hqp : q ≠ p := fun hc => (List.nodup_cons.mp hcnd).1 (hc ▸ hq)
        exact (List.mem_erase_of_ne hqp).mpr hqun
      · have h1 := inv.grab (s := p.cells)
          (by exact List.mem_append_left rest (List.mem_map_of_mem Piece.cells hpun)) g
        rwa [List.erase_append_left rest (List.mem_map_of_mem Piece.cells hpun), ← hmape] at h1
    · rw [if_neg hC]
      exact ih dg geoms un rest fin hnd (List.nodup_cons.mp hcnd).2
        (fun q hq => hcin q (List.mem_cons_of_mem _ hq)) inv

/-- The disconnected-first pass of one level keeps the separation invariant. -/
lemma discPass_inv (orc : Orc) (norig : ℕ → ℕ) :
    ∀ (gs : List ℕ) (st : RcSt) (rest : List (Finset ℕ)),
      (st.unused.map Piece.cells).Nodup →
      Inv (st.unused.map Piece.cells ++ rest) st.geoms st.dgeoms →
      Inv (((discPass orc norig gs st).unused.map Piece.cells) ++ rest)
          (discPass orc norig gs st).geoms (discPass orc norig gs st).dgeoms ∧
        (((discPass orc norig gs st).unused.map Piece.cells)).Nodup := by
  intro gs
  induction gs with
  | nil => intro st rest hnd inv; exact ⟨inv, hnd⟩
  | cons g gs ih =>
    intro st rest hnd inv
    rw [discPass]
    have hunnd : st.unused.Nodup := hnd.of_map
    have hgrab := grabPieces_inv orc (norig g) g
      (st.unused.filter (fun p => orc.pQueryO (st.dgeoms g) p)) st.dgeoms st.geoms
      st.unused rest false hnd (hunnd.filter _) (fun p hp => List.mem_of_mem_filter hp) inv
    exact ih _ rest hgrab.2 (hgrab.1.sync g)

/-- The largest-shared-perimeter pass consumes every remaining piece of the
level (or dies), preserving the separation invariant. -/
lemma mainPass_inv (orc : Orc) (tg : ℕ → Finset ℕ) :
    ∀ (ps : List Piece) (geoms dg : ℕ → Finset ℕ) (rest : List (Finset ℕ))
      (g2 : ℕ → Finset ℕ),
      Inv (ps.map Piece.cells ++ rest) geoms dg →
      mainPass orc tg ps geoms = .ok g2 →
      Inv rest g2 dg := by
  intro ps
  induction ps with
  | nil =>
    intro geoms dg rest g2 inv hok
    rw [mainPass] at hok
    cases hok
    exact inv
  | cons p ps ih =>
    intro geoms dg rest g2 inv hok
    rw [mainPass] at hok
    rcases hpick : pickMaxLast (((orc.queryO tg p.cells).filter
        (fun g => decide (g ∈ p.owners) && !(orc.bndEmptyO p.cells (geoms g)))).map
        (fun g => (g, orc.bndLenO p.cells (geoms g)))) with _ | m
    · rw [hpick] at hok
      cases hok
    · rw [hpick] at hok
      have h1 := inv.assign (s := p.cells) (by simp) m.1
      rw [List.map_cons, List.cons_append, List.erase_cons_head] at h1
      exact ih _ dg rest g2 h1 hok

/-- The loop over the higher overlap levels keeps the separation invariant,
ending with only the holes unconsumed. -/
lemma levelLoop_inv (orc : Orc) (norig : ℕ → ℕ) :
    ∀ (lvls : List (List Piece)) (s : (ℕ → Finset ℕ) × (ℕ → Finset ℕ) × List ℕ)
      (holesC : List (Finset ℕ)) (s2 : (ℕ → Finset ℕ) × (ℕ → Finset ℕ) × List ℕ),
      (∀ l ∈ lvls, (l.map Piece.cells).Nodup) →
      Inv ((lvls.map (List.map Piece.cells)).flatten ++ holesC) s.1 s.2.1 →
      levelLoop orc norig lvls s = .ok s2 →
      Inv holesC s2.1 s2.2.1 := by
  intro lvls
  induction lvls with
  | nil =>
    intro s holesC s2 _ inv hok
    rw [levelLoop] at hok
    cases hok
    simpa using inv
  | cons lvl lvls ih =>
    intro s holesC s2 hnds inv hok
    rw [levelLoop] at hok
    have hinv0 : Inv (lvl.map Piece.cells ++ ((lvls.map (List.map Piece.cells)).flatten ++ holesC))
        s.1 s.2.1 := by
      rw [List.map_cons, List.flatten_cons, List.append_assoc] at inv
      exact inv
    have hd := discPass_inv orc norig s.2.2 ⟨s.1, s.2.1, lvl, s.2.2⟩
      ((lvls.map (List.map Piece.cells)).flatten ++ holesC) (hnds lvl (by simp)) hinv0
    rcases hmain : mainPass orc (discPass orc norig s.2.2 ⟨s.1, s.2.1, lvl, s.2.2⟩).geoms
        (discPass orc norig s.2.2 ⟨s.1, s.2.1, lvl, s.2.2⟩).unused
        (discPass orc norig s.2.2 ⟨s.1, s.2.1, lvl, s.2.2⟩).geoms with e | geoms2
    · rw [hmain] at hok
      cases hok
    · rw [hmain] at hok
      have h2 := mainPass_inv orc (discPass orc norig s.2.2 ⟨s.1, s.2.1, lvl, s.2.2⟩).geoms
        (discPass orc norig s.2.2 ⟨s.1, s.2.1, lvl, s.2.2⟩).unused
        (discPass orc norig s.2.2 ⟨s.1, s.2.1, lvl, s.2.2⟩).geoms
        (discPass orc norig s.2.2 ⟨s.1, s.2.1, lvl, s.2.2⟩).dgeoms
        ((lvls.map (List.map Piece.cells)).flatten ++ holesC) geoms2 hd.1 hmain
      exact ih _ holesC s2 (fun l hl => hnds l (List.mem_cons_of_mem _ hl)) h2 hok

lemma Inv.perm {avail avail2 : List (Finset ℕ)} (hperm : avail.Perm avail2)
    {geoms dgeoms : ℕ → Finset ℕ} (inv : Inv avail geoms dgeoms) :
    Inv avail2 geoms dgeoms := by
  have hsymm : ∀ {x y : Finset ℕ}, Disjoint x y → Disjoint y x :=
    fun h => Disjoint.symm h
  exact ⟨(List.Perm.pairwise_iff hsymm hperm).mp inv.availPW,
    fun s hs => inv.availG s (hperm.mem_iff.mpr hs),
    fun s hs => inv.availD s (hperm.mem_iff.mpr hs),
    inv.geomsPW, inv.dgG, inv.dgPW⟩

lemma count_filter_piece (f : Piece → Bool) (p : Piece) :
    ∀ l : List Piece, (l.filter f).count p = if f p then l.count p else 0 := by
  intro l
  induction l with
  | nil => simp
  | cons q l ih =>
    by_cases hq : f q
    · by_cases hqp : q = p
      · subst hqp
        simp [List.filter_cons_of_pos hq, ih, hq]
      · simp [List.filter_cons_of_pos hq, ih, List.count_cons_of_ne (fun hc => hqp hc.symm)]
    · by_cases hqp : q = p
      · subst hqp
        simp [List.filter_cons_of_neg hq, ih, hq]
      · simp [List.filter_cons_of_neg hq, ih, List.count_cons_of_ne (fun hc => hqp hc.symm)]

lemma count_flatten_piece (p : Piece) :
    ∀ ls : List (List Piece), ls.flatten.count p = (ls.map (List.count p)).sum := by
  intro ls
  induction ls with
  | nil => simp
  | cons l ls ih => rw [List.flatten_cons, List.count_append, ih, List.map_cons, List.sum_cons]

lemma sum_range_ite (c d : ℕ) :
    ∀ n, (((List.range n).map (fun k => if d = k + 1 then c else 0)).sum)
      = if 1 ≤ d ∧ d ≤ n then c else 0 := by
  intro n
  induction n with
  | zero =>
    rw [List.range_zero]
    simp only [List.map_nil, List.sum_nil]
    rw [if_neg (by omega)]
  | succ n ih =>
    rw [List.range_succ, List.map_append, List.sum_append, ih]
    simp only [List.map_cons, List.map_nil, List.sum_cons, List.sum_nil]
    by_cases h1 : 1 ≤ d ∧ d ≤ n
    · rw [if_pos h1, if_neg (by omega), if_pos (by omega)]
      omega
    · by_cases h2 : d = n + 1
      · rw [if_neg h1, if_pos h2, if_pos (by omega)]
        omega
      · rw [if_neg h1, if_neg h2, if_neg (by omega)]
        omega

lemma le_foldr_max (f : Piece → ℕ) {p : Piece} :
    ∀ l : List Piece, p ∈ l → f p ≤ (l.map f).foldr max 0 := by
  intro l
  induction l with
  | nil => intro hp; cases hp
  | cons q l ih =>
    intro hp
    rw [List.map_cons, List.foldr_cons]
    rcases List.mem_cons.mp hp with hp | hp
    · subst hp; exact le_max_left _ _
    · exact le_trans (ih hp) (le_max_right _ _)

/-- The tower plus the holes of `building_blocks_jc` are a permutation of the
full piece list: every piece lands in exactly one degree group. -/
lemma bb_perm (idx : List ℕ) (poly : ℕ → Finset ℕ) (U : List ℕ) :
    ((building_blocks_jc idx poly U).1.flatten ++ (building_blocks_jc idx poly U).2).Perm
      (pieces_of idx poly U) := by
  apply List.perm_iff_count.mpr
  intro p
  rw [List.count_append]
  show ((((List.range ((List.map (fun p => p.owners.length) (pieces_of idx poly U)).foldr max 0)).map
      (fun k => (pieces_of idx poly U).filter (fun p => decide (p.owners.length = k + 1)))).flatten).count p)
      + (((pieces_of idx poly U).filter (fun p => decide (p.owners.length = 0))).count p)
      = (pieces_of idx poly U).count p
  rw [count_flatten_piece, List.map_map]
  have hmapeq : ((List.range ((List.map (fun p => p.owners.length) (pieces_of idx poly U)).foldr max 0)).map
      ((List.count p) ∘ (fun k => (pieces_of idx poly U).filter (fun q => decide (q.owners.length = k + 1)))))
      = (List.range ((List.map (fun p => p.owners.length) (pieces_of idx poly U)).foldr max 0)).map
        (fun k => if p.owners.length = k + 1 then (pieces_of idx poly U).count p else 0) := by
    apply List.map_congr_left
    intro k _
    simp only [Function.comp_apply]
    rw [count_filter_piece]
    by_cases hd : p.owners.length = k + 1
    · rw [if_pos (by simpa using hd), if_pos hd]
    · rw [if_neg (by simpa using hd), if_neg hd]
  rw [hmapeq, sum_range_ite, count_filter_piece]
  by_cases hmem : p ∈ pieces_of idx poly U
  · have hle : p.owners.length
        ≤ ((pieces_of idx poly U).map (fun q => q.owners.length)).foldr max 0 :=
      le_foldr_max (fun q => q.owners.length) _ hmem
    by_cases hd : p.owners.length = 0
    · rw [if_neg (by omega), if_pos (by simpa using hd)]
      omega
    · rw [if_pos (by constructor <;> omega), if_neg (by simpa using hd)]
      omega
  · have hcnt : (pieces_of idx poly U).count p = 0 := List.count_eq_zero.mpr hmem
    rw [hcnt]
    simp

/-- Any entry of the tower or of the holes list is a piece of the arrangement. -/
lemma bb_mem_pieces {idx : List ℕ} {poly : ℕ → Finset ℕ} {U : List ℕ} {p : Piece}
    (hp : p ∈ (building_blocks_jc idx poly U).1.flatten ++ (building_blocks_jc idx poly U).2) :
    p ∈ pieces_of idx poly U :=
  (bb_perm idx poly U).subset hp

/-- The pieces of the arrangement have pairwise disjoint, individually
nonempty cell sets; hence so has any reordering of them. -/
lemma pieces_cells_pairwise (idx : List ℕ) (poly : ℕ → Finset ℕ) (U : List ℕ) :
    ((pieces_of idx poly U).map Piece.cells).Pairwise Disjoint := by
  have hnd := @pieces_of_nodup_cells idx poly U
  refine hnd.pairwise_of_forall_ne ?_
  intro a ha b hb hab
  rcases List.mem_map.mp ha with ⟨p, hp, rfl⟩
  rcases List.mem_map.mp hb with ⟨q, hq, rfl⟩
  have how : p.owners ≠ q.owners := by
    intro hc
    apply hab
    have h1 := (mem_pieces_of hp).2
    have h2 := (mem_pieces_of hq).2
    rw [h1, h2, hc]
  exact pieces_of_disjoint_of_ne_owners hp hq how

lemma bb_fst (idx : List ℕ) (poly : ℕ → Finset ℕ) (U : List ℕ) :
    (building_blocks_jc idx poly U).1
      = (List.range (((pieces_of idx poly U).map (fun p => p.owners.length)).foldr max 0)).map
          (fun k => (pieces_of idx poly U).filter (fun p => decide (p.owners.length = k + 1))) :=
  rfl

lemma bb_snd (idx : List ℕ) (poly : ℕ → Finset ℕ) (U : List ℕ) :
    (building_blocks_jc idx poly U).2
      = (pieces_of idx poly U).filter (fun p => decide (p.owners.length = 0)) :=
  rfl

lemma bb_level_sublist {idx : List ℕ} {poly : ℕ → Finset ℕ} {U : List ℕ} {l : List Piece}
    (hl : l ∈ (building_blocks_jc idx poly U).1) : l.Sublist (pieces_of idx poly U) := by
  rw [bb_fst] at hl
  rcases List.mem_map.mp hl with ⟨k, _, rfl⟩
  exact List.filter_sublist _

/-- The initial separation invariant: all pieces (tower and holes together)
have pairwise disjoint cells and every geometry starts as the empty polygon. -/
lemma init_inv (idx : List ℕ) (poly : ℕ → Finset ℕ) (U : List ℕ) :
    Inv (((building_blocks_jc idx poly U).1.map (List.map Piece.cells)).flatten
        ++ (building_blocks_jc idx poly U).2.map Piece.cells)
      (fun _ => ∅) (fun _ => ∅) := by
  refine ⟨?_, ?_, ?_, ?_, ?_, ?_⟩
  · have heq : ((building_blocks_jc idx poly U).1.map (List.map Piece.cells)).flatten
        ++ (building_blocks_jc idx poly U).2.map Piece.cells
        = ((building_blocks_jc idx poly U).1.flatten
            ++ (building_blocks_jc idx poly U).2).map Piece.cells := by
      rw [List.map_append, List.map_flatten]
    rw [heq]
    have hperm := (bb_perm idx poly U).map Piece.cells
    have hsymm : ∀ {x y : Finset ℕ}, Disjoint x y → Disjoint y x :=
      fun h => Disjoint.symm h
    exact (List.Perm.pairwise_iff hsymm hperm).mpr (pieces_cells_pairwise idx poly U)
  · intro s _ i
    exact Finset.disjoint_empty_right s
  · intro s _ i
    exact Finset.disjoint_empty_right s
  · intro i j _
    exact Finset.disjoint_empty_left ∅
  · intro i j _
    exact Finset.disjoint_empty_left ∅
  · intro i j _
    exact Finset.disjoint_empty_left ∅

/-- After `reconstruct_from_overlap_tower_jc` succeeds on the building blocks
of an input, the geometries of distinct indices are pairwise disjoint and the
holes are untouched: they are pairwise disjoint and disjoint from every
reconstructed geometry. -/
lemma reconstruct_sep (orc : Orc) (idx : List ℕ) (poly : ℕ → Finset ℕ) (U : List ℕ)
    (g2 : ℕ → Finset ℕ)
    (hok : reconstruct_from_overlap_tower_jc orc idx poly
        (building_blocks_jc idx poly U).1 = .ok g2) :
    (((building_blocks_jc idx poly U).2.map Piece.cells).Pairwise Disjoint) ∧
      (∀ s ∈ (building_blocks_jc idx poly U).2.map Piece.cells, ∀ i, Disjoint s (g2 i)) ∧
      (∀ i j, i ≠ j → Disjoint (g2 i) (g2 j)) := by
  have hinit := init_inv idx poly U
  rcases htower : (building_blocks_jc idx poly U).1 with _ | ⟨lvl1, higher⟩
  · rw [htower] at hok
    rw [reconstruct_from_overlap_tower_jc] at hok
    cases hok
  · rw [htower] at hok hinit
    rw [reconstruct_from_overlap_tower_jc] at hok
    rcases hll : levelLoop orc (fun i => orc.ncompO (poly i)) higher
        (assignOrder1 (fun _ => ∅) lvl1, assignOrder1 (fun _ => ∅) lvl1,
          idx.filter (fun i => decide (orc.ncompO (poly i)
            < orc.ncompO (assignOrder1 (fun _ => ∅) lvl1 i)))) with e | s
    · rw [hll] at hok
      cases hok
    · rw [hll] at hok
      have hg2 : s.1 = g2 := by
        cases hok
        rfl
      have hinit2 : Inv (lvl1.map Piece.cells
          ++ ((higher.map (List.map Piece.cells)).flatten
              ++ (building_blocks_jc idx poly U).2.map Piece.cells))
          (fun _ => ∅) (fun _ => ∅) := by
        rw [List.map_cons, List.flatten_cons, List.append_assoc] at hinit
        exact hinit
      have h1 := assignOrder1_inv lvl1 _ (fun _ => ∅) (fun _ => ∅) hinit2
      have h2 := (h1.copy)
      have hnds : ∀ l ∈ higher, (l.map Piece.cells).Nodup := by
        intro l hl
        have : l ∈ (building_blocks_jc idx poly U).1 := by
          rw [htower]
          exact List.mem_cons_of_mem _ hl
        exact ((bb_level_sublist this).map Piece.cells).nodup pieces_of_nodup_cells
      have h3 := levelLoop_inv orc (fun i => orc.ncompO (poly i)) higher
        (assignOrder1 (fun _ => ∅) lvl1, assignOrder1 (fun _ => ∅) lvl1,
          idx.filter (fun i => decide (orc.ncompO (poly i)
            < orc.ncompO (assignOrder1 (fun _ => ∅) lvl1 i))))
        ((building_blocks_jc idx poly U).2.map Piece.cells) s hnds h2 hll
      rw [hg2] at h3
      exact ⟨h3.availPW, h3.availG, h3.geomsPW⟩

/-- The separation invariant for the stages after reconstruction, where no
disconnected-copy column exists any more. -/
def SInv (avail : List (Finset ℕ)) (geoms : ℕ → Finset ℕ) : Prop :=
  Inv avail geoms (fun _ => ∅)

lemma SInv.of_inv {avail : List (Finset ℕ)} {geoms dg : ℕ → Finset ℕ}
    (inv : Inv avail geoms dg) : SInv avail geoms :=
  ⟨inv.availPW, inv.availG, fun s _ _ => Finset.disjoint_empty_right s,
   inv.geomsPW, fun _ _ _ => Finset.disjoint_empty_left _,
   fun _ _ _ => Finset.disjoint_empty_left _⟩

lemma subset_foldr_union {t : Finset ℕ} :
    ∀ {l : List (Finset ℕ)}, t ∈ l → t ⊆ l.foldr (· ∪ ·) ∅ := by
  intro l
  induction l with
  | nil => intro ht; cases ht
  | cons x xs ih =>
    intro ht
    rw [List.foldr_cons]
    rcases List.mem_cons.mp ht with ht | ht
    · subst ht; exact Finset.subset_union_left
    · exact subset_trans (ih ht) Finset.subset_union_right

/-- Contract of `partial_fill_data_jc` as used by `close_gaps_jc`: the
returned triple always carries a target polygon (the source either finds a
connecting sliver or falls back to merging the whole hole, both of which bind
`poly_to_add_to`), and the connecting piece together with the new holes is a
partition of the hole being filled (the pieces come from `shapely.ops.split`
applied to the hole). -/
def PfC (orc : Orc) : Prop :=
  ∀ h comps,
    (∃ g, (orc.pfO h comps).1 = some g) ∧
    (((orc.pfO h comps).2.1 :: (orc.pfO h comps).2.2).Pairwise Disjoint) ∧
    ((orc.pfO h comps).2.1 :: (orc.pfO h comps).2.2).foldr (· ∪ ·) ∅ = h

/-- Splitting an available hole: the piece `x` goes to polygon `g`, the other
parts `xs` become newly available; separation is preserved. -/
lemma SInv.split_assign {avail : List (Finset ℕ)} {geoms : ℕ → Finset ℕ}
    (inv : SInv avail geoms) {h : Finset ℕ} (hh : h ∈ avail) {x : Finset ℕ}
    {xs : List (Finset ℕ)} (hpw : (x :: xs).Pairwise Disjoint)
    (hsub : ∀ t ∈ x :: xs, t ⊆ h) (g : ℕ) :
    SInv (avail.erase h ++ xs) (addTo geoms g x) := by
  refine ⟨?_, ?_, fun s _ _ => Finset.disjoint_empty_right s,
    ?_, fun _ _ _ => Finset.disjoint_empty_left _, fun _ _ _ => Finset.disjoint_empty_left _⟩
  · rw [List.pairwise_append]
    refine ⟨inv.availPW.sublist (List.erase_sublist h avail),
      (List.pairwise_cons.mp hpw).2, ?_⟩
    intro s hs t ht
    have hsh : Disjoint h s := pairwise_disjoint_erase_mem inv.availPW hh hs
    exact Finset.disjoint_of_subset_right (hsub t (List.mem_cons_of_mem _ ht)) hsh.symm
  · intro s hs i
    rcases List.mem_append.mp hs with hs | hs
    · have hsmem := List.mem_of_mem_erase hs
      by_cases hg : i = g
      · subst hg
        rw [addTo_self]
        refine Finset.disjoint_union_right.mpr ⟨inv.availG s hsmem i, ?_⟩
        have hsh : Disjoint h s := pairwise_disjoint_erase_mem inv.availPW hh hs
        exact Finset.disjoint_of_subset_right (hsub x (by simp)) hsh.symm
      · rw [addTo_ne _ _ _ hg]
        exact inv.availG s hsmem i
    · have hsx : Disjoint x s := List.rel_of_pairwise_cons hpw hs
      have hssub : s ⊆ h := hsub s (List.mem_cons_of_mem _ hs)
      by_cases hg : i = g
      · subst hg
        rw [addTo_self]
        exact Finset.disjoint_union_right.mpr
          ⟨Finset.disjoint_of_subset_left hssub (inv.availG h hh i), hsx.symm⟩
      · rw [addTo_ne _ _ _ hg]
        exact Finset.disjoint_of_subset_left hssub (inv.availG h hh i)
  · intro a b hab
    by_cases ha : a = g
    · subst ha
      rw [addTo_self, addTo_ne _ _ _ (Ne.symm hab)]
      exact Finset.disjoint_union_left.mpr ⟨inv.geomsPW a b hab,
        Finset.disjoint_of_subset_left (hsub x (by simp)) (inv.availG h hh b)⟩
    · rw [addTo_ne _ _ _ ha]
      by_cases hb : b = g
      · subst hb
        rw [addTo_self]
        exact Finset.disjoint_union_right.mpr ⟨inv.geomsPW a b hab,
          (Finset.disjoint_of_subset_left (hsub x (by simp)) (inv.availG h hh a)).symm⟩
      · rw [addTo_ne _ _ _ hb]
        exact inv.geomsPW a b hab

/-- One round of the gap closer preserves separation: whatever mix of whole
merges, partial fills and kept holes happens, the holes left for the next
round are pairwise disjoint and disjoint from all geometries, which stay
pairwise disjoint. -/
lemma close_gaps_round_sinv (orc : Orc) (hpf : PfC orc) :
    ∀ (hcs : List (Finset ℕ × List (ℕ × ℚ))) (st : CgRound) (res : CgRound),
      SInv (hcs.map Prod.fst ++ (st.kept ++ st.newHoles)) st.geoms →
      close_gaps_round orc hcs st = .ok res →
      SInv (res.kept ++ res.newHoles) res.geoms := by
  intro hcs
  induction hcs with
  | nil =>
    intro st res inv hok
    rw [close_gaps_round] at hok
    cases hok
    simpa using inv
  | cons hc rest ih =>
    intro st res inv hok
    rcases hc with ⟨h, comps⟩
    rw [close_gaps_round] at hok
    by_cases hc3 : (comps.map Prod.fst).dedup.length ≤ 3
    · rw [if_pos hc3] at hok
      rcases hpick : pickMaxLast (comps.map (fun b => (b.1, orc.bndLenO h (st.geoms b.1))))
          with _ | m
      · simp only [hpick] at hok
        cases hok
      · simp only [hpick] at hok
        refine ih ⟨addTo st.geoms m.1 h, st.kept, st.newHoles, true⟩ res ?_ hok
        have h1 := inv.assign (s := h) (by simp) m.1
        rwa [List.map_cons, List.cons_append, List.erase_cons_head] at h1
    · rw [if_neg hc3] at hok
      rcases (hpf h comps).1 with ⟨g, hg⟩
      simp only [hg] at hok
      refine ih _ res ?_ hok
      show SInv (rest.map Prod.fst ++ (st.kept ++ (st.newHoles ++ (orc.pfO h comps).2.2)))
        (addTo st.geoms g (orc.pfO h comps).2.1)
      have hsub : ∀ t ∈ (orc.pfO h comps).2.1 :: (orc.pfO h comps).2.2, t ⊆ h := by
        intro t ht
        rw [← (hpf h comps).2.2]
        exact subset_foldr_union ht
      have h1 := inv.split_assign (h := h) (by simp) (hpf h comps).2.1 hsub g
      rw [List.map_cons, List.cons_append, List.erase_cons_head] at h1
      rwa [List.append_assoc, List.append_assoc] at h1

/-- The gap-closing loop preserves pairwise disjointness of the geometries. -/
lemma close_gaps_loop_pw (orc : Orc) (hpf : PfC orc) :
    ∀ (fuel : ℕ) (geoms : ℕ → Finset ℕ) (holes : List (Finset ℕ)) (g2 : ℕ → Finset ℕ),
      SInv holes geoms →
      close_gaps_loop orc fuel geoms holes = .ok g2 →
      ∀ i j, i ≠ j → Disjoint (g2 i) (g2 j) := by
  intro fuel
  induction fuel with
  | zero =>
    intro geoms holes g2 _ hok
    rw [close_gaps_loop] at hok
    cases hok
  | succ fuel ih =>
    intro geoms holes g2 inv hok
    rw [close_gaps_loop] at hok
    rcases hround : close_gaps_round orc (holes.map (fun h => (h, orc.hbO h geoms)))
        ⟨geoms, [], [], false⟩ with e | st
    · rw [hround] at hok
      cases hok
    · simp only [hround] at hok
      have hinv0 : SInv ((holes.map (fun h => (h, orc.hbO h geoms))).map Prod.fst
          ++ ([] ++ [])) geoms := by
        have hmm : (holes.map (fun h => (h, orc.hbO h geoms))).map Prod.fst = holes := by
          rw [List.map_map]
          exact List.map_congr_left (fun a _ => rfl) |>.trans (List.map_id holes)
        rw [hmm]
        simpa using inv
      have hst := close_gaps_round_sinv orc hpf _ ⟨geoms, [], [], false⟩ st hinv0 hround
      by_cases hact : st.activity = true
      · rw [if_pos hact] at hok
        exact ih st.geoms (st.kept ++ st.newHoles) g2 hst hok
      · rw [if_neg hact] at hok
        cases hok
        exact hst.geomsPW

/-- Pairwise interior-disjointness of a geometry column. -/
def PW (f : ℕ → Finset ℕ) : Prop :=
  ∀ i j, i ≠ j → Disjoint (f i) (f j)

/-- Point update of a geometry column. -/
def setAt (f : ℕ → Finset ℕ) (i : ℕ) (s : Finset ℕ) : ℕ → Finset ℕ :=
  fun j => if j = i then s else f j

/-- The union of the geometries over the dataset index. -/
def unionAll (idx : List ℕ) (f : ℕ → Finset ℕ) : Finset ℕ :=
  idx.foldr (fun i acc => f i ∪ acc) ∅

/-- The union of the components named by an index list (the rebuild of
`MultiPolygon([...])` at the end of the disconnection repair). -/
def unionIdx (comps : List (Finset ℕ)) (l : List ℕ) : Finset ℕ :=
  l.foldr (fun c acc => comps.getD c ∅ ∪ acc) ∅

/-- The union of the cells of a list of pieces. -/
def unionCells (ps : List Piece) : Finset ℕ :=
  ps.foldr (fun p acc => p.cells ∪ acc) ∅

lemma mem_unionAll {a : ℕ} {f : ℕ → Finset ℕ} :
    ∀ {idx : List ℕ}, a ∈ unionAll idx f ↔ ∃ i ∈ idx, a ∈ f i := by
  intro idx
  induction idx with
  | nil => simp [unionAll]
  | cons i idx ih =>
    have hstep : unionAll (i :: idx) f = f i ∪ unionAll idx f := rfl
    rw [hstep]
    simp [ih]

lemma mem_unionIdx {a : ℕ} {comps : List (Finset ℕ)} :
    ∀ {l : List ℕ}, a ∈ unionIdx comps l ↔ ∃ c ∈ l, a ∈ comps.getD c ∅ := by
  intro l
  induction l with
  | nil => simp [unionIdx]
  | cons c l ih =>
    have hstep : unionIdx comps (c :: l) = comps.getD c ∅ ∪ unionIdx comps l := rfl
    rw [hstep]
    simp [ih]

lemma mem_unionCells {a : ℕ} :
    ∀ {ps : List Piece}, a ∈ unionCells ps ↔ ∃ p ∈ ps, a ∈ p.cells := by
  intro ps
  induction ps with
  | nil => simp [unionCells]
  | cons p ps ih =>
    have hstep : unionCells (p :: ps) = p.cells ∪ unionCells ps := rfl
    rw [hstep]
    simp [ih]

lemma mem_foldr_union {a : ℕ} :
    ∀ {l : List (Finset ℕ)}, a ∈ l.foldr (· ∪ ·) ∅ ↔ ∃ s ∈ l, a ∈ s := by
  intro l
  induction l with
  | nil => simp
  | cons s l ih => simp [List.foldr_cons, ih]

lemma unionIdx_range (comps : List (Finset ℕ)) :
    unionIdx comps (List.range comps.length) = comps.foldr (· ∪ ·) ∅ := by
  ext a
  rw [mem_unionIdx, mem_foldr_union]
  constructor
  · rintro ⟨c, hc, ha⟩
    refine ⟨comps.getD c ∅, ?_, ha⟩
    have hlt := List.mem_range.mp hc
    rw [List.getD_eq_getElem _ _ hlt]
    exact List.getElem_mem hlt
  · rintro ⟨s, hs, ha⟩
    rcases List.mem_iff_getElem.mp hs with ⟨c, hlt, rfl⟩
    exact ⟨c, List.mem_range.mpr hlt, by rwa [List.getD_eq_getElem _ _ hlt]⟩

lemma unionAll_addTo {idx : List ℕ} {f : ℕ → Finset ℕ} {i : ℕ} {s : Finset ℕ}
    (hi : i ∈ idx) : unionAll idx (addTo f i s) = unionAll idx f ∪ s := by
  ext a
  rw [Finset.mem_union, mem_unionAll, mem_unionAll]
  constructor
  · rintro ⟨j, hj, ha⟩
    by_cases hji : j = i
    · subst hji
      rw [addTo_self] at ha
      rcases Finset.mem_union.mp ha with ha | ha
      · exact Or.inl ⟨j, hj, ha⟩
      · exact Or.inr ha
    · rw [addTo_ne _ _ _ hji] at ha
      exact Or.inl ⟨j, hj, ha⟩
  · rintro (⟨j, hj, ha⟩ | ha)
    · by_cases hji : j = i
      · subst hji
        exact ⟨j, hj, by rw [addTo_self]; exact Finset.mem_union_left _ ha⟩
      · exact ⟨j, hj, by rw [addTo_ne _ _ _ hji]; exact ha⟩
    · exact ⟨i, hi, by rw [addTo_self]; exact Finset.mem_union_right _ ha⟩

lemma comps_getD_pairwise {comps : List (Finset ℕ)} (hpw : comps.Pairwise Disjoint)
    {c d : ℕ} (hne : c ≠ d) : Disjoint (comps.getD c ∅) (comps.getD d ∅) := by
  by_cases hc : c < comps.length
  · by_cases hd : d < comps.length
    · rcases Nat.lt_or_ge c d with hlt | hge
      · rw [List.getD_eq_getElem _ _ hc, List.getD_eq_getElem _ _ hd]
        exact List.pairwise_iff_getElem.mp hpw c d hc hd hlt
      · have hlt : d < c := by omega
        rw [List.getD_eq_getElem _ _ hc, List.getD_eq_getElem _ _ hd]
        exact (List.pairwise_iff_getElem.mp hpw d c hd hc hlt).symm
    · have hd0 : comps.getD d ∅ = ∅ := List.getD_eq_default _ _ (by omega)
      rw [hd0]
      exact Finset.disjoint_empty_right _
  · have hc0 : comps.getD c ∅ = ∅ := List.getD_eq_default _ _ (by omega)
    rw [hc0]
    exact Finset.disjoint_empty_left _

lemma insertAsc_perm (x : ℕ × ℚ) : ∀ l : List (ℕ × ℚ), (insertAsc x l).Perm (x :: l) := by
  intro l
  induction l with
  | nil => exact List.Perm.refl _
  | cons y ys ih =>
    rw [insertAsc]
    by_cases hxy : x.2 < y.2
    · rw [if_pos hxy]
    · rw [if_neg hxy]
      exact (List.Perm.cons y ih).trans (List.Perm.swap x y ys)

lemma sortAsc_perm (l : List (ℕ × ℚ)) : (sortAsc l).Perm l := by
  suffices h : ∀ (l acc : List (ℕ × ℚ)),
      (l.foldl (fun a x => insertAsc x a) acc).Perm (acc ++ l) by
    simpa using h l []
  intro l
  induction l with
  | nil => intro acc; simp
  | cons x xs ih =>
    intro acc
    rw [List.foldl_cons]
    refine (ih (insertAsc x acc)).trans ?_
    refine (((insertAsc_perm x acc).append_right xs).trans ?_)
    exact (List.perm_middle).symm

/-- Contract of `num_components_jc` and shapely component indexing: the
components of a geometry are pairwise disjoint, union back to it, and are as
many as `num_components_jc` reports. -/
def CompsC (orc : Orc) : Prop :=
  ∀ s : Finset ℕ, (orc.compsO s).Pairwise Disjoint ∧
    (orc.compsO s).foldr (· ∪ ·) ∅ = s ∧ (orc.compsO s).length = orc.ncompO s

/-- Contract of the `STRtree` queries: only dataset indices are returned. -/
def QueryC (orc : Orc) (idx : List ℕ) : Prop :=
  ∀ tg q, ∀ j ∈ orc.queryO tg q, j ∈ idx

lemma pickMaxLast_mem {l : List (ℕ × ℚ)} {m : ℕ × ℚ}
    (hm : pickMaxLast l = some m) : m ∈ l := by
  rcases l with _ | ⟨x, xs⟩
  · cases hm
  · obtain ⟨m2, hm2, hmem, _⟩ := pickMaxLast_spec (x :: xs) (by simp)
    rw [hm] at hm2
    cases hm2
    exact hmem

lemma frag_disjoint_unionIdx_erase {comps : List (Finset ℕ)}
    (hcpw : comps.Pairwise Disjoint) {c : ℕ} {kept : List ℕ} (hknd : kept.Nodup) :
    Disjoint (comps.getD c ∅) (unionIdx comps (kept.erase c)) := by
  rw [Finset.disjoint_left]
  intro a ha hcon
  rcases mem_unionIdx.mp hcon with ⟨c2, hc2, ha2⟩
  have hne : c2 ≠ c := ((List.Nodup.mem_erase_iff hknd).mp hc2).1
  exact (Finset.disjoint_left.mp (comps_getD_pairwise hcpw (Ne.symm hne)) ha) ha2

lemma unionIdx_erase_subset {comps : List (Finset ℕ)} {c : ℕ} {kept : List ℕ} :
    unionIdx comps (kept.erase c) ⊆ unionIdx comps kept := by
  intro a ha
  rcases mem_unionIdx.mp ha with ⟨c2, hc2, ha2⟩
  exact mem_unionIdx.mpr ⟨c2, List.mem_of_mem_erase hc2, ha2⟩

lemma getD_subset_unionIdx {comps : List (Finset ℕ)} {c : ℕ} {kept : List ℕ}
    (hc : c ∈ kept) : comps.getD c ∅ ⊆ unionIdx comps kept :=
  fun _ ha => mem_unionIdx.mpr ⟨c, hc, ha⟩

/-- Pointwise containment preserves pairwise disjointness. -/
lemma PW_mono {f f2 : ℕ → Finset ℕ} (hsub : ∀ i, f2 i ⊆ f i) (hpw : PW f) : PW f2 :=
  fun i j hij =>
    Finset.disjoint_of_subset_left (hsub i)
      (Finset.disjoint_of_subset_right (hsub j) (hpw i j hij))

/-- Moving one small component from the over-disconnected polygon to a
neighbour preserves pairwise disjointness of the (virtual) geometry column. -/
lemma PW_frag_move {comps : List (Finset ℕ)} (hcpw : comps.Pairwise Disjoint)
    {geoms : ℕ → Finset ℕ} {g m c : ℕ} {kept : List ℕ}
    (hmg : m ≠ g) (hc : c ∈ kept) (hknd : kept.Nodup)
    (hpw : PW (setAt geoms g (unionIdx comps kept))) :
    PW (setAt (addTo geoms m (comps.getD c ∅)) g (unionIdx comps (kept.erase c))) := by
  have hfsub : comps.getD c ∅ ⊆ unionIdx comps kept := getD_subset_unionIdx hc
  have hpwm : PW (setAt geoms g (unionIdx comps (kept.erase c))) := by
    refine PW_mono ?_ hpw
    intro i
    by_cases hig : i = g
    · subst hig
      simp only [setAt, if_pos rfl]
      exact unionIdx_erase_subset
    · simp only [setAt, if_neg hig]
      exact subset_refl _
  have hsinv : SInv [comps.getD c ∅] (setAt geoms g (unionIdx comps (kept.erase c))) := by
    refine ⟨by simp, ?_, fun s _ _ => Finset.disjoint_empty_right s, hpwm,
      fun _ _ _ => Finset.disjoint_empty_left _, fun _ _ _ => Finset.disjoint_empty_left _⟩
    intro s hs i
    have hsc : s = comps.getD c ∅ := by simpa using hs
    subst hsc
    by_cases hig : i = g
    · subst hig
      simp only [setAt, if_pos rfl]
      exact frag_disjoint_unionIdx_erase hcpw hknd
    · simp only [setAt, if_neg hig]
      have hgi := hpw g i (Ne.symm hig)
      have h1 : setAt geoms g (unionIdx comps kept) g = unionIdx comps kept := by
        simp [setAt]
      have h2 : setAt geoms g (unionIdx comps kept) i = geoms i := by
        simp [setAt, hig]
      rw [h1, h2] at hgi
      exact Finset.disjoint_of_subset_left hfsub hgi
  have h2 := hsinv.assign (s := comps.getD c ∅) (by simp) m
  have heq : addTo (setAt geoms g (unionIdx comps (kept.erase c))) m (comps.getD c ∅)
      = setAt (addTo geoms m (comps.getD c ∅)) g (unionIdx comps (kept.erase c)) := by
    funext j
    by_cases hjg : j = g
    · simp [addTo, setAt, hjg, Ne.symm hmg]
    · by_cases hjm : j = m
      · simp [addTo, setAt, hjg, hjm, hmg]
      · simp [addTo, setAt, hjg, hjm]
  rw [heq] at h2
  exact h2.geomsPW

/-- Moving one component between two dataset members does not change the union
of all geometries. -/
lemma unionAll_frag_move {comps : List (Finset ℕ)} {geoms : ℕ → Finset ℕ}
    {g m c : ℕ} {kept : List ℕ} {idx : List ℕ}
    (hg : g ∈ idx) (hm : m ∈ idx) (hmg : m ≠ g) (hc : c ∈ kept) :
    unionAll idx (setAt (addTo geoms m (comps.getD c ∅)) g (unionIdx comps (kept.erase c)))
      = unionAll idx (setAt geoms g (unionIdx comps kept)) := by
  have hksplit : ∀ a : ℕ, a ∈ unionIdx comps kept
      ↔ a ∈ comps.getD c ∅ ∨ a ∈ unionIdx comps (kept.erase c) := by
    intro a
    rw [mem_unionIdx, mem_unionIdx]
    constructor
    · rintro ⟨c2, hc2, ha⟩
      have := (List.perm_cons_erase hc).mem_iff.mp hc2
      rcases List.mem_cons.mp this with h | h
      · subst h; exact Or.inl ha
      · exact Or.inr ⟨c2, h, ha⟩
    · rintro (ha | ⟨c2, hc2, ha⟩)
      · exact ⟨c, hc, ha⟩
      · exact ⟨c2, List.mem_of_mem_erase hc2, ha⟩
  ext a
  rw [mem_unionAll, mem_unionAll]
  constructor
  · rintro ⟨i, hi, ha⟩
    by_cases hig : i = g
    · subst hig
      rw [setAt, if_pos rfl] at ha
      exact ⟨i, hi, by rw [setAt, if_pos rfl]; exact (hksplit a).mpr (Or.inr ha)⟩
    · rw [setAt, if_neg hig] at ha
      by_cases him : i = m
      · subst him
        rw [addTo_self] at ha
        rcases Finset.mem_union.mp ha with ha | ha
        · exact ⟨i, hi, by rw [setAt, if_neg hig]; exact ha⟩
        · refine ⟨g, hg, ?_⟩
          rw [setAt, if_pos rfl]
          exact (hksplit a).mpr (Or.inl ha)
      · rw [addTo_ne _ _ _ him] at ha
        exact ⟨i, hi, by rw [setAt, if_neg hig]; exact ha⟩
  · rintro ⟨i, hi, ha⟩
    by_cases hig : i = g
    · subst hig
      rw [setAt, if_pos rfl] at ha
      rcases (hksplit a).mp ha with ha | ha
      · refine ⟨m, hm, ?_⟩
        rw [setAt, if_neg hmg, addTo_self]
        exact Finset.mem_union_right _ ha
      · exact ⟨i, hi, by rw [setAt, if_pos rfl]; exact ha⟩
    · rw [setAt, if_neg hig] at ha
      by_cases him : i = m
      · subst him
        refine ⟨i, hi, ?_⟩
        rw [setAt, if_neg hig, addTo_self]
        exact Finset.mem_union_left _ ha
      · exact ⟨i, hi, by rw [setAt, if_neg hig, addTo_ne _ _ _ him]; exact ha⟩

/-- Specification of the fragment loop: the polygon `g` itself is untouched,
at most one kept component disappears per processed fragment, and — through
the virtual geometry in which `g` is replaced by the union of its kept
components — pairwise disjointness and the union of all geometries over the
dataset are preserved. -/
lemma fragLoop_spec (orc : Orc) (tg : ℕ → Finset ℕ) (g : ℕ) (comps : List (Finset ℕ))
    (big : ℚ) (idx : List ℕ) (hg : g ∈ idx) (Hq : QueryC orc idx)
    (hcpw : comps.Pairwise Disjoint) :
    ∀ (todo : List (ℕ × ℚ)) (geoms : ℕ → Finset ℕ) (kept : List ℕ)
      (res : (ℕ → Finset ℕ) × List ℕ),
      (todo.map Prod.fst).Nodup → (∀ it ∈ todo, it.1 ∈ kept) → kept.Nodup →
      PW (setAt geoms g (unionIdx comps kept)) →
      fragLoop orc tg g comps big todo (geoms, kept) = .ok res →
      res.1 g = geoms g ∧ res.2.Nodup ∧
        kept.length ≤ res.2.length + todo.length ∧
        PW (setAt res.1 g (unionIdx comps res.2)) ∧
        unionAll idx (setAt res.1 g (unionIdx comps res.2))
          = unionAll idx (setAt geoms g (unionIdx comps kept)) := by
  intro todo
  induction todo with
  | nil =>
    intro geoms kept res _ _ hknd hpw hok
    rw [fragLoop] at hok
    cases hok
    exact ⟨rfl, hknd, by simp, hpw, rfl⟩
  | cons ca rest ih =>
    intro geoms kept res hnd hmem hknd hpw hok
    rw [fragLoop] at hok
    have hndtl : (rest.map Prod.fst).Nodup := (List.nodup_cons.mp hnd).2
    have hcanotin : ca.1 ∉ rest.map Prod.fst := (List.nodup_cons.mp hnd).1
    by_cases hsmall : ca.2 < big * (1 / 10000)
    · rw [if_pos hsmall] at hok
      rcases hpick : pickMaxLast (((orc.queryO tg (comps.getD ca.1 ∅)).filter
          (fun j => decide (j ≠ g) && !(orc.bndEmptyO (comps.getD ca.1 ∅) (geoms j)))).map
          (fun j => (j, orc.bndLenO (comps.getD ca.1 ∅) (geoms j)))) with _ | m
      · simp only [hpick] at hok
        cases hok
      · simp only [hpick] at hok
        have hmmem := pickMaxLast_mem hpick
        rcases List.mem_map.mp hmmem with ⟨j0, hj0, hj0m⟩
        have hj0f := List.mem_filter.mp hj0
        have hj0p : j0 ≠ g ∧ orc.bndEmptyO (comps.getD ca.1 ∅) (geoms j0) = false := by
          have h2 := hj0f.2
          simp only [Bool.and_eq_true, decide_eq_true_eq, Bool.not_eq_true'] at h2
          exact h2
        have hjidx : j0 ∈ idx := Hq tg _ j0 hj0f.1
        have hm1 : m.1 = j0 := by rw [← hj0m]
        have hca : ca.1 ∈ kept := hmem ca (by simp)
        have hpw2 := PW_frag_move hcpw (m := m.1) (g := g) (c := ca.1)
          (by rw [hm1]; exact hj0p.1) hca hknd hpw
        have hun := @unionAll_frag_move comps geoms g m.1 ca.1 kept idx hg
          (by rw [hm1]; exact hjidx)
          (by rw [hm1]; exact hj0p.1) hca
        have hres := ih (addTo geoms m.1 (comps.getD ca.1 ∅)) (kept.erase ca.1) res hndtl
          (fun it hit => (List.mem_erase_of_ne (by
            intro hc
            exact hcanotin (hc ▸ List.mem_map_of_mem Prod.fst hit))).mpr
            (hmem it (List.mem_cons_of_mem _ hit)))
          (hknd.erase _) hpw2 hok
        have hglen : kept.length ≤ res.2.length + (rest.length + 1) := by
          have h1 := hres.2.2.1
          have h2 : (kept.erase ca.1).length = kept.length - 1 :=
            List.length_erase_of_mem hca
          have h3 : 1 ≤ kept.length := List.length_pos.mpr
            (fun hco => by rw [hco] at hca; cases hca)
          omega
        refine ⟨?_, hres.2.1, by simpa using hglen, hres.2.2.2.1, hres.2.2.2.2.trans hun⟩
        rw [hres.1, addTo_ne _ _ _ (by rw [hm1]; exact Ne.symm hj0p.1)]
    · rw [if_neg hsmall] at hok
      have hres := ih geoms kept res hndtl
        (fun it hit => hmem it (List.mem_cons_of_mem _ hit)) hknd hpw hok
      exact ⟨hres.1, hres.2.1, by have := hres.2.2.1; simp only [List.length_cons]; omega,
        hres.2.2.2.1, hres.2.2.2.2⟩

/-- Disconnection repair of one over-disconnected polygon preserves pairwise
disjointness and the union of all geometries, whichever neighbours receive the
peeled-off fragments; the key count argument is that at most
`excess = ncomp - ncomp_orig` components are removed, so at least one
component survives whenever the original polygon was nonempty. -/
lemma disc_block_spec (orc : Orc) (tg origGeoms : ℕ → Finset ℕ) (g : ℕ)
    (geoms : ℕ → Finset ℕ) (warns : List ℕ) (idx : List ℕ)
    (res : (ℕ → Finset ℕ) × List ℕ)
    (Hc : CompsC orc) (Hq : QueryC orc idx) (hg : g ∈ idx)
    (horig : 1 ≤ orc.ncompO (origGeoms g)) (hpw : PW geoms)
    (hok : disc_block orc tg origGeoms g geoms warns = .ok res) :
    PW res.1 ∧ unionAll idx res.1 = unionAll idx geoms := by
  obtain ⟨hcpw, hcun, hclen⟩ := Hc (geoms g)
  have hvg0 : setAt geoms g
      (unionIdx (orc.compsO (geoms g)) (List.range (orc.compsO (geoms g)).length)) = geoms := by
    funext j
    by_cases hjg : j = g
    · rw [setAt, if_pos hjg, unionIdx_range, hcun, hjg]
    · rw [setAt, if_neg hjg]
  have hpw0 : PW (setAt geoms g
      (unionIdx (orc.compsO (geoms g)) (List.range (orc.compsO (geoms g)).length))) := by
    rw [hvg0]
    exact hpw
  have haol : ((orc.compsO (geoms g)).enum.map
      (fun ca => (ca.1, ((ca.2.card : ℚ))))).map Prod.fst
      = List.range (orc.compsO (geoms g)).length := by
    rw [List.map_map]
    have : (Prod.fst ∘ fun ca : ℕ × Finset ℕ => (ca.1, ((ca.2.card : ℚ))))
        = Prod.fst := by
      funext ca
      rfl
    rw [this, List.enum_map_fst]
  have hsortperm := sortAsc_perm ((orc.compsO (geoms g)).enum.map
      (fun ca => (ca.1, ((ca.2.card : ℚ)))))
  have hsortnd : ((sortAsc ((orc.compsO (geoms g)).enum.map
      (fun ca => (ca.1, ((ca.2.card : ℚ)))))).map Prod.fst).Nodup := by
    refine ((hsortperm.map Prod.fst).nodup_iff).mpr ?_
    rw [haol]
    exact List.nodup_range _
  have htodond : (((sortAsc ((orc.compsO (geoms g)).enum.map
      (fun ca => (ca.1, ((ca.2.card : ℚ)))))).take
        (orc.ncompO (geoms g) - orc.ncompO (origGeoms g))).map Prod.fst).Nodup := by
    rw [List.map_take]
    exact (List.take_sublist _ _).nodup hsortnd
  have htodomem : ∀ it ∈ (sortAsc ((orc.compsO (geoms g)).enum.map
      (fun ca => (ca.1, ((ca.2.card : ℚ)))))).take
        (orc.ncompO (geoms g) - orc.ncompO (origGeoms g)),
      it.1 ∈ List.range (orc.compsO (geoms g)).length := by
    intro it hit
    have h1 := (List.take_sublist _ _).subset hit
    have h2 := hsortperm.subset h1
    rw [← haol]
    exact List.mem_map_of_mem Prod.fst h2
  rw [disc_block] at hok
  rcases hfrag : fragLoop orc tg g (orc.compsO (geoms g))
      (max ((geoms g).card : ℚ) ((origGeoms g).card : ℚ))
      ((sortAsc ((orc.compsO (geoms g)).enum.map
        (fun ca => (ca.1, ((ca.2.card : ℚ)))))).take
          (orc.ncompO (geoms g) - orc.ncompO (origGeoms g)))
      (geoms, List.range (orc.compsO (geoms g)).length) with e | s
  · simp only [hfrag] at hok
    cases hok
  · simp only [hfrag] at hok
    have hfacts := fragLoop_spec orc tg g (orc.compsO (geoms g))
      (max ((geoms g).card : ℚ) ((origGeoms g).card : ℚ)) idx hg Hq hcpw
      _ geoms (List.range (orc.compsO (geoms g)).length) s htodond htodomem
      (List.nodup_range _) hpw0 hfrag
    have huvg : unionAll idx (setAt geoms g
        (unionIdx (orc.compsO (geoms g)) (List.range (orc.compsO (geoms g)).length)))
        = unionAll idx geoms := by
      rw [hvg0]
    rcases hs2 : s.2 with _ | ⟨c, cs⟩
    · -- component_num_list is empty: only possible when the geometry at `g`
      -- had no components at all, in which case nothing was moved.
      have hlen := hfacts.2.2.1
      rw [hs2] at hlen
      simp only [List.length_range, List.length_nil] at hlen
      have htl : ((sortAsc ((orc.compsO (geoms g)).enum.map
          (fun ca => (ca.1, ((ca.2.card : ℚ)))))).take
            (orc.ncompO (geoms g) - orc.ncompO (origGeoms g))).length
          ≤ orc.ncompO (geoms g) - orc.ncompO (origGeoms g) := by
        rw [List.length_take]
        omega
      have hL0 : (orc.compsO (geoms g)).length = 0 := by
        omega
      have hcnil : orc.compsO (geoms g) = [] := List.length_eq_zero.mp hL0
      have htodo0 : (sortAsc ((orc.compsO (geoms g)).enum.map
          (fun ca => (ca.1, ((ca.2.card : ℚ)))))).take
            (orc.ncompO (geoms g) - orc.ncompO (origGeoms g)) = [] := by
        rw [hcnil]
        simp [sortAsc]
      rw [htodo0, hcnil] at hfrag
      rw [fragLoop] at hfrag
      have hsval : s = (geoms, ([] : List ℕ)) := by
        cases hfrag
        rfl
      rw [hs2] at hok
      simp only [] at hok
      cases hok
      rw [hsval]
      exact ⟨hpw, rfl⟩
    · rcases cs with _ | ⟨c2, more⟩
      · rw [hs2] at hok
        simp only [] at hok
        cases hok
        have heqf : (fun j => if j = g then (orc.compsO (geoms g)).getD c ∅ else s.1 j)
            = setAt s.1 g (unionIdx (orc.compsO (geoms g)) [c]) := by
          funext j
          by_cases hjg : j = g
          · have : unionIdx (orc.compsO (geoms g)) [c]
                = (orc.compsO (geoms g)).getD c ∅ := by
              show (orc.compsO (geoms g)).getD c ∅ ∪ ∅ = _
              exact Finset.union_empty _
            rw [setAt, if_pos hjg, if_pos hjg, this]
          · rw [setAt, if_neg hjg, if_neg hjg]
        constructor
        · show PW (fun j => if j = g then (orc.compsO (geoms g)).getD c ∅ else s.1 j)
          rw [heqf]
          have := hfacts.2.2.2.1
          rwa [hs2] at this
        · show unionAll idx (fun j => if j = g
              then (orc.compsO (geoms g)).getD c ∅ else s.1 j) = unionAll idx geoms
          rw [heqf]
          have := hfacts.2.2.2.2
          rw [hs2] at this
          exact this.trans huvg
      · rw [hs2] at hok
        simp only [] at hok
        cases hok
        have heqf : (fun j => if j = g then (c :: c2 :: more).foldr
              (fun c acc => (orc.compsO (geoms g)).getD c ∅ ∪ acc) ∅ else s.1 j)
            = setAt s.1 g (unionIdx (orc.compsO (geoms g)) (c :: c2 :: more)) := by
          funext j
          by_cases hjg : j = g
          · rw [setAt, if_pos hjg, if_pos hjg]
            rfl
          · rw [setAt, if_neg hjg, if_neg hjg]
        constructor
        · show PW (fun j => if j = g then (c :: c2 :: more).foldr
              (fun c acc => (orc.compsO (geoms g)).getD c ∅ ∪ acc) ∅ else s.1 j)
          rw [heqf]
          have := hfacts.2.2.2.1
          rwa [hs2] at this
        · show unionAll idx (fun j => if j = g then (c :: c2 :: more).foldr
              (fun c acc => (orc.compsO (geoms g)).getD c ∅ ∪ acc) ∅ else s.1 j)
              = unionAll idx geoms
          rw [heqf]
          have := hfacts.2.2.2.2
          rw [hs2] at this
          exact this.trans huvg

/-- Folding the per-polygon disconnection repair over any list of indices
drawn from the dataset preserves pairwise disjointness and the overall union
of cells of the geometry column. -/
lemma disc_gloop_spec (orc : Orc) (tg origGeoms : ℕ → Finset ℕ) (idx : List ℕ)
    (Hc : CompsC orc) (Hq : QueryC orc idx)
    (horig : ∀ i ∈ idx, 1 ≤ orc.ncompO (origGeoms i)) :
    ∀ (gs : List ℕ) (s res : (ℕ → Finset ℕ) × List ℕ), (∀ g ∈ gs, g ∈ idx) →
      PW s.1 → disc_gloop orc tg origGeoms gs s = .ok res →
      PW res.1 ∧ unionAll idx res.1 = unionAll idx s.1 := by
  intro gs
  induction gs with
  | nil =>
    intro s res _ hpw hok
    rw [disc_gloop] at hok
    cases hok
    exact ⟨hpw, rfl⟩
  | cons g gs ih =>
    intro s res hmem hpw hok
    rw [disc_gloop] at hok
    rcases hblk : disc_block orc tg origGeoms g s.1 s.2 with e | s1
    · rw [hblk] at hok
      cases hok
    · rw [hblk] at hok
      have hgidx : g ∈ idx := hmem g (List.mem_cons_self g gs)
      have hspec := disc_block_spec orc tg origGeoms g s.1 s.2 idx s1 Hc Hq hgidx
        (horig g hgidx) hpw hblk
      have hih := ih s1 res (fun a ha => hmem a (List.mem_cons_of_mem _ ha))
        hspec.1 hok
      exact ⟨hih.1, hih.2.trans hspec.2⟩

/-- The whole disconnection-repair stage (lines 255-315) preserves pairwise
disjointness and the union of cells of the geometry column: the residual
check of lines 310-315 only appends warnings. -/
lemma disc_repair_spec (orc : Orc) (idx : List ℕ) (origGeoms geoms : ℕ → Finset ℕ)
    (res : (ℕ → Finset ℕ) × List ℕ)
    (Hc : CompsC orc) (Hq : QueryC orc idx)
    (horig : ∀ i ∈ idx, 1 ≤ orc.ncompO (origGeoms i)) (hpw : PW geoms)
    (hok : disc_repair orc idx origGeoms geoms = .ok res) :
    PW res.1 ∧ unionAll idx res.1 = unionAll idx geoms := by
  rw [disc_repair] at hok
  rcases hgl : disc_gloop orc geoms origGeoms
      ((idx.filter (fun i => orc.isMultiO (geoms i))).filter
        (fun i => decide (orc.ncompO (origGeoms i) < orc.ncompO (geoms i))))
      (geoms, []) with e | s
  · simp only [hgl] at hok
    cases hok
  · simp only [hgl] at hok
    cases hok
    have hmem : ∀ g ∈ (idx.filter (fun i => orc.isMultiO (geoms i))).filter
        (fun i => decide (orc.ncompO (origGeoms i) < orc.ncompO (geoms i))), g ∈ idx := by
      intro g hg
      exact List.mem_of_mem_filter (List.mem_of_mem_filter hg)
    have hg := disc_gloop_spec orc geoms origGeoms idx Hc Hq horig _ (geoms, []) s
      hmem hpw hgl
    exact ⟨hg.1, hg.2⟩

/-- A second concrete oracle, realizing two unit polygons on disjoint cells:
each nonempty geometry is one connected polygon, intersections are cell
intersections, the `STRtree` reports both polygons for every query, and a
partial fill merges the whole hole into polygon 0. -/
def orcB : Orc where
  ncompO := fun s => if s = ∅ then 0 else 1
  isMultiO := fun _ => false
  compsO := fun s => if s = ∅ then [] else [s]
  interEmptyO := fun a b => decide (a ∩ b = ∅)
  interLenO := fun a b => ((a ∩ b).card : ℚ)
  bndEmptyO := fun _ _ => false
  bndLenO := fun _ _ => 1
  queryO := fun _ _ => [0, 1]
  pQueryO := fun _ _ => true
  hbO := fun _ _ => []
  pfO := fun h _ => (some 0, h, [])

lemma orcB_compsC : CompsC orcB := by
  intro s
  by_cases hs : s = ∅
  · subst hs
    exact ⟨by simp [orcB], by simp [orcB], by simp [orcB]⟩
  · exact ⟨by simp [orcB, hs], by simp [orcB, hs], by simp [orcB, hs]⟩

lemma orcB_queryC : QueryC orcB [0, 1] := by
  intro tg q j hj
  simpa [orcB] using hj

lemma orcB_pfC : PfC orcB := by
  intro h comps
  exact ⟨⟨0, rfl⟩, by simp [orcB], by simp [orcB]⟩

lemma orcB_mono : ∀ s, orcB.isMultiO s = false → orcB.ncompO s ≤ 1 := by
  intro s _
  by_cases hs : s = ∅
  · simp [orcB, hs]
  · simp [orcB, hs]

/-- Two disjoint unit squares: polygon 0 covers cell 0, polygon 1 covers
cell 1. -/
def polyB : ℕ → Finset ℕ :=
  fun i => if i = 0 then {0} else if i = 1 then {1} else ∅

/-- The full pipeline run on the two disjoint unit squares with gap closing
on. -/
def runB : Except String ((ℕ → Finset ℕ) × List ℕ) :=
  repair_gdf_jc orcB [0, 1] polyB [0, 1] true 1

/-- The geometry column and warning list produced by `runB`. -/
def resB : (ℕ → Finset ℕ) × List ℕ :=
  match runB with
  | .ok r => r
  | .error _ => (fun _ => ∅, [])

/-- The union of a list of hole cell sets. -/
def holesU (l : List (Finset ℕ)) : Finset ℕ :=
  l.foldr (· ∪ ·) ∅

/-- Contract of the hole-boundary rows `intersections_jc(holes_df,
geometries_df)`: every target polygon of a row is a dataset index. -/
def HbC (orc : Orc) (idx : List ℕ) : Prop :=
  ∀ h g, ∀ b ∈ orc.hbO h g, b.1 ∈ idx

/-- Contract of `partial_fill_data_jc`: the polygon chosen to receive the
connecting piece is a dataset index. -/
def PfIdxC (orc : Orc) (idx : List ℕ) : Prop :=
  ∀ h comps g, (orc.pfO h comps).1 = some g → g ∈ idx

lemma holesU_append (a b : List (Finset ℕ)) :
    holesU (a ++ b) = holesU a ∪ holesU b := by
  ext x
  simp only [holesU, Finset.mem_union, mem_foldr_union, List.mem_append]
  constructor
  · rintro ⟨s, hs | hs, hx⟩
    · exact Or.inl ⟨s, hs, hx⟩
    · exact Or.inr ⟨s, hs, hx⟩
  · rintro (⟨s, hs, hx⟩ | ⟨s, hs, hx⟩)
    · exact ⟨s, Or.inl hs, hx⟩
    · exact ⟨s, Or.inr hs, hx⟩

lemma unionCells_append (a b : List Piece) :
    unionCells (a ++ b) = unionCells a ∪ unionCells b := by
  ext x
  simp only [Finset.mem_union, mem_unionCells, List.mem_append]
  constructor
  · rintro ⟨p, hp | hp, hx⟩
    · exact Or.inl ⟨p, hp, hx⟩
    · exact Or.inr ⟨p, hp, hx⟩
  · rintro (⟨p, hp, hx⟩ | ⟨p, hp, hx⟩)
    · exact ⟨p, Or.inl hp, hx⟩
    · exact ⟨p, Or.inr hp, hx⟩

lemma unionAll_empty (idx : List ℕ) : unionAll idx (fun _ => ∅) = ∅ := by
  ext a
  rw [mem_unionAll]
  simp

/-- On a duplicate-free index, the total area of a pairwise-disjoint geometry
column is the area of its union. -/
lemma sumCard_eq_card_unionAll {f : ℕ → Finset ℕ} (hpw : PW f) :
    ∀ {idx : List ℕ}, idx.Nodup → sumCard idx f = (unionAll idx f).card := by
  intro idx
  induction idx with
  | nil =>
    intro _
    simp [sumCard, unionAll]
  | cons i is ih =>
    intro hnd
    have hnd2 := List.nodup_cons.mp hnd
    have hstep : unionAll (i :: is) f = f i ∪ unionAll is f := rfl
    have hdisj : Disjoint (f i) (unionAll is f) := by
      rw [Finset.disjoint_left]
      intro a ha hcon
      rcases mem_unionAll.mp hcon with ⟨j, hj, haj⟩
      have hij : i ≠ j := fun hc => hnd2.1 (hc ▸ hj)
      exact (Finset.disjoint_left.mp (hpw i j hij) ha) haj
    have hsum : sumCard (i :: is) f = (f i).card + sumCard is f := by
      simp [sumCard]
    rw [hsum, hstep, Finset.card_union_of_disjoint hdisj, ih hnd2.2]

/-- Every owner listed on a piece of the arrangement is a dataset index. -/
lemma pieces_of_owner_mem {idx : List ℕ} {poly : ℕ → Finset ℕ} {U : List ℕ} {p : Piece}
    (hp : p ∈ pieces_of idx poly U) : ∀ g ∈ p.owners, g ∈ idx := by
  intro g hg
  have hs := (mem_pieces_of hp).1
  rcases List.mem_map.mp (List.mem_dedup.mp hs) with ⟨c, _, hco⟩
  rw [← hco] at hg
  exact List.mem_of_mem_filter hg

/-- Every cell of the region belongs to a piece, namely the one carrying its
owner signature. -/
lemma mem_pieces_of_of_memU {idx : List ℕ} {poly : ℕ → Finset ℕ} {U : List ℕ} {c : ℕ}
    (hcU : c ∈ U) :
    ∃ p ∈ pieces_of idx poly U, c ∈ p.cells ∧ p.owners = owners_of idx poly c := by
  refine ⟨⟨(U.filter (fun d => decide (owners_of idx poly d = owners_of idx poly c))).toFinset,
    owners_of idx poly c⟩, ?_, ?_, rfl⟩
  · rw [pieces_of]
    exact List.mem_map.mpr ⟨owners_of idx poly c,
      List.mem_dedup.mpr (List.mem_map.mpr ⟨c, hcU, rfl⟩), rfl⟩
  · show c ∈ (U.filter (fun d => decide (owners_of idx poly d = owners_of idx poly c))).toFinset
    rw [List.mem_toFinset, List.mem_filter]
    exact ⟨hcU, decide_eq_true rfl⟩

/-- Every piece of the first tower level is of degree one, so its sole owner
is a dataset index. -/
lemma bb_headI_sole (idx : List ℕ) (poly : ℕ → Finset ℕ) (U : List ℕ) :
    ∀ p ∈ (building_blocks_jc idx poly U).1.headI, soleOwner p ∈ idx := by
  intro p hp
  rcases hbb : (building_blocks_jc idx poly U).1 with _ | ⟨lvl1, rest⟩
  · rw [hbb] at hp
    exact absurd hp (List.not_mem_nil p)
  · rw [hbb] at hp
    have hp1 : p ∈ lvl1 := hp
    have hl1 : lvl1 ∈ (building_blocks_jc idx poly U).1 := by
      rw [hbb]
      exact List.mem_cons_self _ _
    have hpp : p ∈ pieces_of idx poly U := (bb_level_sublist hl1).subset hp1
    have hlen : p.owners.length = 1 := by
      have h2 := hbb
      rw [bb_fst] at h2
      rcases hn : ((pieces_of idx poly U).map (fun p => p.owners.length)).foldr max 0
          with _ | m
      · rw [hn] at h2
        simp at h2
      · rw [hn, List.range_succ_eq_map, List.map_cons] at h2
        have hl1eq := (List.cons_eq_cons.mp h2).1
        rw [← hl1eq] at hp1
        have := (List.mem_filter.mp hp1).2
        have h3 := of_decide_eq_true this
        omega
    rcases List.length_eq_one.mp hlen with ⟨a, ha⟩
    have hsa : soleOwner p = a := by
      rw [soleOwner, ha]
      rfl
    rw [hsa]
    exact pieces_of_owner_mem hpp a (by rw [ha]; exact List.mem_cons_self _ _)

/-- The tower pieces cover exactly the union of the input polygons, provided
every input polygon lies inside the covered region `U`. -/
lemma tower_unionCells (idx : List ℕ) (poly : ℕ → Finset ℕ) (U : List ℕ)
    (hpolyU : ∀ i ∈ idx, poly i ⊆ U.toFinset) :
    unionCells (building_blocks_jc idx poly U).1.flatten = unionAll idx poly := by
  ext c
  rw [mem_unionCells, mem_unionAll]
  constructor
  · rintro ⟨p, hp, hc⟩
    rcases List.mem_flatten.mp hp with ⟨lvl, hlvl, hplvl⟩
    have hpp : p ∈ pieces_of idx poly U := (bb_level_sublist hlvl).subset hplvl
    have hk : ∃ k, p.owners.length = k + 1 := by
      rw [bb_fst] at hlvl
      rcases List.mem_map.mp hlvl with ⟨k, _, rfl⟩
      have := (List.mem_filter.mp hplvl).2
      exact ⟨k, of_decide_eq_true this⟩
    rcases hk with ⟨k, hk⟩
    have how : owners_of idx poly c = p.owners := ((mem_cells_pieces_of hpp).mp hc).2
    have hone : p.owners ≠ [] := by
      intro hcon
      rw [hcon] at hk
      simp at hk
    rcases List.exists_mem_of_ne_nil p.owners hone with ⟨i, hi⟩
    have hio : i ∈ owners_of idx poly c := by
      rw [how]
      exact hi
    refine ⟨i, List.mem_of_mem_filter hio, ?_⟩
    have := List.mem_filter.mp hio
    exact of_decide_eq_true this.2
  · rintro ⟨i, hi, hc⟩
    have hcU : c ∈ U := List.mem_toFinset.mp (hpolyU i hi hc)
    rcases @mem_pieces_of_of_memU idx poly U c hcU with ⟨p, hpmem, hcp, hpo⟩
    have hio : i ∈ p.owners := by
      rw [hpo, owners_of, List.mem_filter]
      exact ⟨hi, decide_eq_true hc⟩
    have hlen1 : 1 ≤ p.owners.length := by
      rcases hpow : p.owners with _ | ⟨a, as⟩
      · rw [hpow] at hio
        cases hio
      · simp
    have hle : p.owners.length
        ≤ ((pieces_of idx poly U).map (fun q => q.owners.length)).foldr max 0 :=
      le_foldr_max (fun q => q.owners.length) _ hpmem
    refine ⟨p, ?_, hcp⟩
    rw [bb_fst]
    refine List.mem_flatten.mpr
      ⟨(pieces_of idx poly U).filter
          (fun q => decide (q.owners.length = (p.owners.length - 1) + 1)), ?_, ?_⟩
    · refine List.mem_map.mpr ⟨p.owners.length - 1, List.mem_range.mpr ?_, rfl⟩
      omega
    · refine List.mem_filter.mpr ⟨hpmem, decide_eq_true ?_⟩
      omega

/-- The order-1 pass adds exactly the cells of its pieces to the union of the
geometry column, as long as every receiving owner is a dataset index. -/
lemma assignOrder1_union (idx : List ℕ) :
    ∀ (ps : List Piece) (geoms : ℕ → Finset ℕ),
      (∀ p ∈ ps, soleOwner p ∈ idx) →
      unionAll idx (assignOrder1 geoms ps) = unionAll idx geoms ∪ unionCells ps := by
  intro ps
  induction ps with
  | nil =>
    intro geoms _
    simp [assignOrder1, unionCells]
  | cons p ps ih =>
    intro geoms hmem
    rw [assignOrder1]
    rw [ih _ (fun q hq => hmem q (List.mem_cons_of_mem _ hq))]
    rw [unionAll_addTo (hmem p (List.mem_cons_self p ps))]
    have h1 : unionCells (p :: ps) = p.cells ∪ unionCells ps := rfl
    rw [h1]
    ext a
    simp only [Finset.mem_union]
    tauto

/-- The largest-shared-perimeter pass adds exactly the cells of its pieces to
the union of the geometry column: each piece goes to a polygon returned by the
spatial query, hence a dataset index. -/
lemma mainPass_union (orc : Orc) (idx : List ℕ) (Hq : QueryC orc idx)
    (tg : ℕ → Finset ℕ) :
    ∀ (ps : List Piece) (geoms g2 : ℕ → Finset ℕ),
      mainPass orc tg ps geoms = .ok g2 →
      unionAll idx g2 = unionAll idx geoms ∪ unionCells ps := by
  intro ps
  induction ps with
  | nil =>
    intro geoms g2 hok
    rw [mainPass] at hok
    cases hok
    simp [unionCells]
  | cons p ps ih =>
    intro geoms g2 hok
    rw [mainPass] at hok
    rcases hpick : pickMaxLast (((orc.queryO tg p.cells).filter
        (fun g => decide (g ∈ p.owners) && !(orc.bndEmptyO p.cells (geoms g)))).map
          (fun g => (g, orc.bndLenO p.cells (geoms g)))) with _ | m
    · simp only [hpick] at hok
      cases hok
    · simp only [hpick] at hok
      have hm := pickMaxLast_mem hpick
      rcases List.mem_map.mp hm with ⟨g, hgc, hgm⟩
      have hmidx : m.1 ∈ idx := by
        have hm1 : m.1 = g := by
          rw [← hgm]
        rw [hm1]
        exact Hq tg p.cells g (List.mem_of_mem_filter hgc)
      rw [ih _ _ hok, unionAll_addTo hmidx]
      have h1 : unionCells (p :: ps) = p.cells ∪ unionCells ps := rfl
      rw [h1]
      ext a
      simp only [Finset.mem_union]
      tauto

/-- The level loop, when no polygon was disconnected by refinement, adds
exactly the cells of all higher-level pieces to the union of the geometry
column. -/
lemma levelLoop_union (orc : Orc) (idx : List ℕ) (Hq : QueryC orc idx)
    (norig : ℕ → ℕ) :
    ∀ (lvls : List (List Piece)) (s out : (ℕ → Finset ℕ) × (ℕ → Finset ℕ) × List ℕ),
      s.2.2 = [] →
      levelLoop orc norig lvls s = .ok out →
      unionAll idx out.1 = unionAll idx s.1 ∪ unionCells lvls.flatten := by
  intro lvls
  induction lvls with
  | nil =>
    intro s out _ hok
    rw [levelLoop] at hok
    cases hok
    simp [unionCells]
  | cons lvl lvls ih =>
    intro s out hd hok
    rw [levelLoop] at hok
    rw [hd] at hok
    simp only [discPass] at hok
    rcases hmp : mainPass orc s.1 lvl s.1 with e | geoms2
    · simp only [hmp] at hok
      cases hok
    · simp only [hmp] at hok
      have h2 := ih (geoms2, s.2.1, []) out rfl hok
      have h3 := mainPass_union orc idx Hq s.1 lvl s.1 geoms2 hmp
      rw [h2]
      show unionAll idx geoms2 ∪ unionCells lvls.flatten = _
      rw [h3, List.flatten_cons, unionCells_append]
      ext a
      simp only [Finset.mem_union]
      tauto

/-- After a successful reconstruction in which no polygon was disconnected by
the order-1 refinement, the union of the geometry column is exactly the cells
of the overlap tower. -/
lemma reconstruct_union (orc : Orc) (idx : List ℕ) (poly : ℕ → Finset ℕ)
    (tower : List (List Piece)) (g1 : ℕ → Finset ℕ) (Hq : QueryC orc idx)
    (hsole : ∀ p ∈ tower.headI, soleOwner p ∈ idx)
    (hd0 : idx.filter (fun i => decide (orc.ncompO (poly i)
        < orc.ncompO (assignOrder1 (fun _ => ∅) tower.headI i))) = [])
    (hok : reconstruct_from_overlap_tower_jc orc idx poly tower = .ok g1) :
    unionAll idx g1 = unionCells tower.flatten := by
  rcases tower with _ | ⟨lvl1, higher⟩
  · rw [reconstruct_from_overlap_tower_jc] at hok
    cases hok
  · rw [reconstruct_from_overlap_tower_jc] at hok
    have hh : (lvl1 :: higher).headI = lvl1 := rfl
    rw [hh] at hsole hd0
    rcases hll : levelLoop orc (fun i => orc.ncompO (poly i)) higher
        (assignOrder1 (fun _ => ∅) lvl1, assignOrder1 (fun _ => ∅) lvl1,
          idx.filter (fun i => decide (orc.ncompO (poly i)
            < orc.ncompO (assignOrder1 (fun _ => ∅) lvl1 i)))) with e | s
    · rw [hll] at hok
      cases hok
    · rw [hll] at hok
      have hg1 : s.1 = g1 := by
        cases hok
        rfl

      rw [hd0] at hll
      have h1 := levelLoop_union orc idx Hq (fun i => orc.ncompO (poly i)) higher
        (assignOrder1 (fun _ => ∅) lvl1, assignOrder1 (fun _ => ∅) lvl1, []) s rfl hll
      have h2 := assignOrder1_union idx lvl1 (fun _ => ∅) hsole
      rw [unionAll_empty, Finset.empty_union] at h2
      rw [← hg1, h1]
      have hproj : (assignOrder1 (fun _ => ∅) lvl1, assignOrder1 (fun _ => ∅) lvl1,
          ([] : List ℕ)).1 = assignOrder1 (fun _ => ∅) lvl1 := rfl
      rw [hproj, h2, List.flatten_cons, unionCells_append]

/-- One round of the gap closer conserves cells: whatever leaves the hole
working set is unioned into a dataset geometry row or reappears among the new
holes.  Moreover the kept list never grows under the partial-fill contract,
the activity flag is monotone, and a round ending without activity appended
no new hole. -/
lemma close_gaps_round_union (orc : Orc) (idx : List ℕ) (hpf : PfC orc)
    (hpfi : PfIdxC orc idx) :
    ∀ (hcs : List (Finset ℕ × List (ℕ × ℚ))) (st res : CgRound),
      (∀ hc ∈ hcs, ∀ b ∈ hc.2, b.1 ∈ idx) →
      close_gaps_round orc hcs st = .ok res →
      (unionAll idx res.geoms ∪ holesU res.kept ∪ holesU res.newHoles
          = unionAll idx st.geoms ∪ holesU (hcs.map Prod.fst)
            ∪ holesU st.kept ∪ holesU st.newHoles)
        ∧ res.kept = st.kept
        ∧ (st.activity = true → res.activity = true)
        ∧ (res.activity = false → res.newHoles = st.newHoles) := by
  intro hcs
  induction hcs with
  | nil =>
    intro st res _ hok
    rw [close_gaps_round] at hok
    cases hok
    refine ⟨?_, rfl, fun h => h, fun _ => rfl⟩
    simp [holesU]
  | cons hc rest ih =>
    intro st res hidx hok
    rcases hc with ⟨h, comps⟩
    rw [close_gaps_round] at hok
    by_cases hc3 : (comps.map Prod.fst).dedup.length ≤ 3
    · rw [if_pos hc3] at hok
      rcases hpick : pickMaxLast (comps.map (fun b => (b.1, orc.bndLenO h (st.geoms b.1))))
          with _ | m
      · simp only [hpick] at hok
        cases hok
      · simp only [hpick] at hok
        have hm := pickMaxLast_mem hpick
        rcases List.mem_map.mp hm with ⟨b, hb, hbm⟩
        have hmidx : m.1 ∈ idx := by
          have hm1 : m.1 = b.1 := by
            rw [← hbm]
          rw [hm1]
          exact hidx (h, comps) (List.mem_cons_self _ _) b hb
        have hr := ih ⟨addTo st.geoms m.1 h, st.kept, st.newHoles, true⟩ res
          (fun c hc2 => hidx c (List.mem_cons_of_mem _ hc2)) hok
        refine ⟨?_, hr.2.1, fun _ => hr.2.2.1 rfl, ?_⟩
        · rw [hr.1]
          show unionAll idx (addTo st.geoms m.1 h) ∪ holesU (rest.map Prod.fst)
              ∪ holesU st.kept ∪ holesU st.newHoles
            = unionAll idx st.geoms ∪ holesU (((h, comps) :: rest).map Prod.fst)
              ∪ holesU st.kept ∪ holesU st.newHoles
          rw [unionAll_addTo hmidx]
          have hmap : ((h, comps) :: rest).map Prod.fst = h :: rest.map Prod.fst := rfl
          rw [hmap]
          have hcons : holesU (h :: rest.map Prod.fst) = h ∪ holesU (rest.map Prod.fst) := rfl
          rw [hcons]
          ext a
          simp only [Finset.mem_union]
          tauto
        · intro hres
          have hcontra := hr.2.2.1 rfl
          rw [hres] at hcontra
          exact Bool.noConfusion hcontra
    · rw [if_neg hc3] at hok
      rcases (hpf h comps).1 with ⟨g, hg⟩
      simp only [hg] at hok
      have hgidx : g ∈ idx := hpfi h comps g hg
      have hr := ih ⟨addTo st.geoms g (orc.pfO h comps).2.1, st.kept,
          st.newHoles ++ (orc.pfO h comps).2.2,
          st.activity || !(orc.pfO h comps).2.2.isEmpty⟩ res
        (fun c hc2 => hidx c (List.mem_cons_of_mem _ hc2)) hok
      refine ⟨?_, hr.2.1, ?_, ?_⟩
      · rw [hr.1]
        show unionAll idx (addTo st.geoms g (orc.pfO h comps).2.1)
            ∪ holesU (rest.map Prod.fst) ∪ holesU st.kept
            ∪ holesU (st.newHoles ++ (orc.pfO h comps).2.2)
          = unionAll idx st.geoms ∪ holesU (((h, comps) :: rest).map Prod.fst)
            ∪ holesU st.kept ∪ holesU st.newHoles
        rw [unionAll_addTo hgidx, holesU_append]
        have hsplit : (orc.pfO h comps).2.1 ∪ holesU (orc.pfO h comps).2.2 = h := by
          have h2 := (hpf h comps).2.2
          rw [List.foldr_cons] at h2
          exact h2
        have hmap : ((h, comps) :: rest).map Prod.fst = h :: rest.map Prod.fst := rfl
        rw [hmap]
        have hcons : holesU (h :: rest.map Prod.fst) = h ∪ holesU (rest.map Prod.fst) := rfl
        rw [hcons]
        have hmem := Finset.ext_iff.mp hsplit
        ext a
        simp only [Finset.mem_union]
        have hm2 := hmem a
        rw [Finset.mem_union] at hm2
        tauto
      · intro hact
        refine hr.2.2.1 ?_
        show (st.activity || !(orc.pfO h comps).2.2.isEmpty) = true
        rw [hact, Bool.true_or]
      · intro hres
        have h221 := hr.2.2.2 hres
        have hst2 : (st.activity || !(orc.pfO h comps).2.2.isEmpty) = false := by
          rcases Bool.eq_false_or_eq_true (st.activity || !(orc.pfO h comps).2.2.isEmpty)
              with hb | hb
          · have hcontra := hr.2.2.1 hb
            rw [hres] at hcontra
            exact Bool.noConfusion hcontra
          · exact hb
        have hemp : (orc.pfO h comps).2.2.isEmpty = true := by
          rcases Bool.or_eq_false_iff.mp hst2 with ⟨_, hne⟩
          simpa using hne
        have hnil : (orc.pfO h comps).2.2 = [] := List.isEmpty_iff.mp hemp
        rw [h221]
        show st.newHoles ++ (orc.pfO h comps).2.2 = st.newHoles
        rw [hnil, List.append_nil]

/-- The gap-closing loop conserves cells: on success the union of the final
geometry column is the union of the initial one plus all holes, every hole
having been merged somewhere by the time the loop exits. -/
lemma close_gaps_loop_union (orc : Orc) (idx : List ℕ) (hpf : PfC orc)
    (hpfi : PfIdxC orc idx) (hhb : HbC orc idx) :
    ∀ (fuel : ℕ) (geoms : ℕ → Finset ℕ) (holes : List (Finset ℕ)) (g2 : ℕ → Finset ℕ),
      close_gaps_loop orc fuel geoms holes = .ok g2 →
      unionAll idx g2 = unionAll idx geoms ∪ holesU holes := by
  intro fuel
  induction fuel with
  | zero =>
    intro geoms holes g2 hok
    rw [close_gaps_loop] at hok
    cases hok
  | succ fuel ih =>
    intro geoms holes g2 hok
    rw [close_gaps_loop] at hok
    rcases hround : close_gaps_round orc (holes.map (fun h => (h, orc.hbO h geoms)))
        ⟨geoms, [], [], false⟩ with e | st
    · rw [hround] at hok
      cases hok
    · simp only [hround] at hok
      have hcsidx : ∀ hc ∈ holes.map (fun h => (h, orc.hbO h geoms)),
          ∀ b ∈ hc.2, b.1 ∈ idx := by
        intro hc hmem b hb
        rcases List.mem_map.mp hmem with ⟨h, _, rfl⟩
        exact hhb h geoms b hb
      have hr := close_gaps_round_union orc idx hpf hpfi _ ⟨geoms, [], [], false⟩ st
        hcsidx hround
      have hmm : (holes.map (fun h => (h, orc.hbO h geoms))).map Prod.fst = holes := by
        rw [List.map_map]
        exact List.map_congr_left (fun a _ => rfl) |>.trans (List.map_id holes)
      rw [hmm] at hr
      by_cases hact : st.activity = true
      · rw [if_pos hact] at hok
        have h2 := ih st.geoms (st.kept ++ st.newHoles) g2 hok
        rw [h2, holesU_append, ← Finset.union_assoc, hr.1]
        show unionAll idx geoms ∪ holesU holes ∪ holesU [] ∪ holesU [] = _
        simp only [holesU, List.foldr_nil, Finset.union_empty]
      · rw [if_neg hact] at hok
        cases hok
        have hactf : st.activity = false := by
          rcases Bool.eq_false_or_eq_true st.activity with hb | hb
          · exact absurd hb hact
          · exact hb
        have hk : st.kept = [] := hr.2.1
        have hn : st.newHoles = [] := hr.2.2.2 hactf
        have h1 := hr.1
        rw [hk, hn] at h1
        simp only [holesU, List.foldr_nil, Finset.union_empty] at h1
        exact h1

lemma orcB_pfIdxC : PfIdxC orcB [0, 1] := by
  intro h comps g hg
  have hg2 : some 0 = some g := hg
  cases hg2
  simp

lemma orcB_hbC : HbC orcB [0, 1] := by
  intro h g b hb
  have hb2 : b ∈ ([] : List (ℕ × ℚ)) := hb
  cases hb2

/-- Two overlapping rectangles: polygon 0 covers cells 0 and 1, polygon 1
covers cells 1 and 2; the region is all three cells and has no hole. -/
def polyC : ℕ → Finset ℕ :=
  fun i => if i = 0 then {0, 1} else if i = 1 then {1, 2} else ∅

/-- The pipeline run on the overlapping rectangles with gap closing off. -/
def runC : Except String ((ℕ → Finset ℕ) × List ℕ) :=
  repair_gdf_jc orcB [0, 1] polyC [0, 1, 2] false 1

/-- The geometry column and warning list produced by `runC`. -/
def resC : (ℕ → Finset ℕ) × List ℕ :=
  match runC with
  | .ok r => r
  | .error _ => (fun _ => ∅, [])

/-- The pipeline stages named by the documentation. -/
inductive Stage where
  | arrangement
  | classifier
  | reconstructor
  | gapCloser
  | discRepair
  | rookToQueen
deriving DecidableEq

/-- A geometry as stored in a dataframe: its cells, plus whether its
coordinates carry a third dimension
(`shp.wkb.dumps(..., output_dimension=2)` at lines 228-229 drops it). -/
structure Geom3 where
  cells : Finset ℕ
  is3d : Bool
deriving DecidableEq

/-- A dataframe: its index, its non-geometry attribute columns in order, and
its geometry column. -/
structure Df where
  idx : List ℕ
  cols : List (String × (ℕ → ℤ))
  geom : ℕ → Geom3

/-- The 2-D flattening of lines 227-229. -/
def flatten2d (g : Geom3) : Geom3 :=
  ⟨g.cells, false⟩

/-- Pandas column assignment `df[name] = v`: overwrite the column in place
when one of that name exists, append it otherwise. -/
def setCol (df : Df) (name : String) (v : ℕ → ℤ) : Df :=
  ⟨df.idx,
   if name ∈ df.cols.map Prod.fst
     then df.cols.map (fun c => if c.1 = name then (c.1, v) else c)
     else df.cols ++ [(name, v)],
   df.geom⟩

/-- Pandas column deletion `del df[name]`. -/
def delCol (df : Df) (name : String) : Df :=
  ⟨df.idx, df.cols.filter (fun c => decide (c.1 ≠ name)), df.geom⟩

lemma setCol_cols_fresh {df : Df} {name : String} (hf : name ∉ df.cols.map Prod.fst)
    (v : ℕ → ℤ) : (setCol df name v).cols = df.cols ++ [(name, v)] := by
  rw [setCol]
  exact if_neg hf

lemma filter_ne_of_fresh {name : String} :
    ∀ {cols : List (String × (ℕ → ℤ))}, name ∉ cols.map Prod.fst →
      cols.filter (fun c => decide (c.1 ≠ name)) = cols := by
  intro cols
  induction cols with
  | nil =>
    intro _
    rfl
  | cons c cs ih =>
    intro hf
    rw [List.map_cons] at hf
    have hc : c.1 ≠ name := by
      intro he
      exact hf (List.mem_cons.mpr (Or.inl he.symm))
    rw [List.filter_cons, if_pos (decide_eq_true hc)]
    rw [ih (fun hm => hf (List.mem_cons_of_mem _ hm))]

/-- Adding the two temporary component-count columns (lines 432-433) and
deleting them again (lines 522-523) restores the column list, provided the
input carried no column of either name. -/
lemma temp_cols_roundtrip {cols : List (String × (ℕ → ℤ))}
    (hf1 : "num components orig" ∉ cols.map Prod.fst)
    (hf2 : "num components refined" ∉ cols.map Prod.fst)
    (v1 v2 : ℕ → ℤ) (idx : List ℕ) (geom : ℕ → Geom3) :
    (delCol (delCol (setCol (setCol ⟨idx, cols, geom⟩ "num components orig" v1)
        "num components refined" v2) "num components orig") "num components refined").cols
      = cols := by
  have h1 : (setCol (⟨idx, cols, geom⟩ : Df) "num components orig" v1).cols
      = cols ++ [("num components orig", v1)] := setCol_cols_fresh hf1 v1
  have hfX : "num components refined"
      ∉ ((setCol (⟨idx, cols, geom⟩ : Df) "num components orig" v1).cols).map Prod.fst := by
    rw [h1, List.map_append]
    intro hmem
    rcases List.mem_append.mp hmem with hm | hm
    · exact hf2 hm
    · simp at hm
  have h2 : (setCol (setCol (⟨idx, cols, geom⟩ : Df) "num components orig" v1)
      "num components refined" v2).cols
      = (cols ++ [("num components orig", v1)]) ++ [("num components refined", v2)] := by
    rw [setCol_cols_fresh hfX, h1]
  show ((delCol (setCol (setCol (⟨idx, cols, geom⟩ : Df) "num components orig" v1)
      "num components refined" v2) "num components orig").cols).filter
        (fun c => decide (c.1 ≠ "num components refined")) = cols
  have h3 : (delCol (setCol (setCol (⟨idx, cols, geom⟩ : Df) "num components orig" v1)
      "num components refined" v2) "num components orig").cols
      = cols ++ [("num components refined", v2)] := by
    show ((setCol (setCol (⟨idx, cols, geom⟩ : Df) "num components orig" v1)
        "num components refined" v2).cols).filter
          (fun c => decide (c.1 ≠ "num components orig")) = _
    rw [h2, List.filter_append, List.filter_append, filter_ne_of_fresh hf1]
    have hx1 : ([(("num components orig" : String), v1)]).filter
        (fun c => decide (c.1 ≠ "num components orig")) = [] := by
      rw [List.filter_cons, if_neg (by simp)]
      rfl
    have hx2 : ([(("num components refined" : String), v2)]).filter
        (fun c => decide (c.1 ≠ "num components orig")) = [("num components refined", v2)] := by
      have hcnd : decide ((("num components refined" : String), v2).1
          ≠ "num components orig") = true := by
        rfl
      rw [List.filter_cons, if_pos hcnd]
      rfl
    rw [hx1, hx2, List.append_nil]
  rw [h3, List.filter_append, filter_ne_of_fresh hf2]
  have hx3 : ([(("num components refined" : String), v2)]).filter
      (fun c => decide (c.1 ≠ "num components refined")) = [] := by
    rw [List.filter_cons, if_neg (by simp)]
    rfl
  rw [hx3, List.append_nil]

/-- `repair_gdf_jc` at dataframe granularity (lines 219-324).  The input is
copied at line 224 and the copy is flattened to 2-D at lines 227-229 before
any stage runs; `building_blocks_jc` (line 237) builds the arrangement and
classifies the pieces into the tower and the holes;
`reconstruct_from_overlap_tower_jc` (line 241) copies the frame, rebuilds its
geometry column and temporarily holds the two component-count columns
(lines 432-437, deleted at lines 522-523); the gap closer runs when enabled
(lines 244-246); the disconnection repair with its residual check follows
(lines 255-315), reading the caller's original geometries as its reference;
`min_rook_length = None`, so the rook-to-queen conversion (line 317) is
skipped.  Returns the caller's frame as the call leaves it, the returned
frame, and the stages in execution order. -/
def repair_gdf_jc_df (orc : Orc) (U : List ℕ) (close_gaps : Bool) (fuel : ℕ)
    (geometries0_df : Df) : Except String (Df × Df × List Stage) :=
  match reconstruct_from_overlap_tower_jc orc geometries0_df.idx
      (fun i => (flatten2d (geometries0_df.geom i)).cells)
      (building_blocks_jc geometries0_df.idx
        (fun i => (flatten2d (geometries0_df.geom i)).cells) U).1 with
  | .error e => .error e
  | .ok g1 =>
    let reconstructed_df : Df :=
      delCol (delCol (setCol (setCol
          ⟨geometries0_df.idx, geometries0_df.cols, fun i => ⟨g1 i, false⟩⟩
          "num components orig" (fun i => (orc.ncompO ((geometries0_df.geom i).cells) : ℤ)))
        "num components refined" (fun i => (orc.ncompO (g1 i) : ℤ)))
        "num components orig") "num components refined"
    match (if close_gaps then close_gaps_jc orc fuel g1
        (building_blocks_jc geometries0_df.idx
          (fun i => (flatten2d (geometries0_df.geom i)).cells) U).2
      else .ok g1) with
    | .error e => .error e
    | .ok g2 =>
      match disc_repair orc geometries0_df.idx
          (fun i => (geometries0_df.geom i).cells) g2 with
      | .error e => .error e
      | .ok r =>
        .ok (geometries0_df,
          ⟨reconstructed_df.idx, reconstructed_df.cols, fun i => ⟨r.1 i, false⟩⟩,
          [Stage.arrangement, Stage.classifier] ++ [Stage.reconstructor]
            ++ (if close_gaps then [Stage.gapCloser] else []) ++ [Stage.discRepair])

/-- The stage order the specification describes: the disconnection repair
before the optional gap closer (with the rook-to-queen conversion disabled). -/
def spec_stage_trace (close_gaps : Bool) : List Stage :=
  [Stage.arrangement, Stage.classifier, Stage.reconstructor, Stage.discRepair]
    ++ (if close_gaps then [Stage.gapCloser] else [])

/-- A dataframe over the two disjoint unit squares, with one user attribute
column and 3-D coordinates. -/
def dfB : Df :=
  ⟨[0, 1], [("POP", fun _ => 5)], fun i => ⟨polyB i, true⟩⟩

/-- The dataframe-level pipeline run on `dfB` with gap closing on. -/
def runDf : Except String (Df × Df × List Stage) :=
  repair_gdf_jc_df orcB [0, 1] true 1 dfB

/-- The frames and trace produced by `runDf`. -/
def resDf : Df × Df × List Stage :=
  match runDf with
  | .ok r => r
  | .error _ => (dfB, dfB, [])

/-- A dataframe whose user data includes a column named exactly like the
reconstruction stage's temporary working column. -/
def dfE : Df :=
  ⟨[0, 1], [("num components orig", fun _ => 7)], fun i => ⟨polyB i, false⟩⟩

/-- The dataframe-level pipeline run on `dfE` with gap closing off. -/
def runDfE : Except String (Df × Df × List Stage) :=
  repair_gdf_jc_df orcB [0, 1] false 1 dfE

/-- The frames and trace produced by `runDfE`. -/
def resDfE : Df × Df × List Stage :=
  match runDfE with
  | .ok r => r
  | .error _ => (dfE, dfE, [])

/-- One exploded row of `adj_df` (lines 768-791): a connected component of
the shared boundary of two polygons, with the component's length (the
"boundary length" column of line 789). -/
structure AdjRow where
  g1 : ℕ
  g2 : ℕ
  len : ℚ
deriving DecidableEq

/-- The conversion loop of `small_rook_to_queen_jc` (lines 794-894): the
rows selected at line 791 are visited in order; the recheck of lines 798-801
recomputes the parents' current total shared boundary length —
`geometries_df[g1].intersection(geometries_df[g2]).length`, the length of the
whole multi-component intersection, not of this row's component — and runs
the disk conversion, abstracted by the oracle `convO` (lines 803-891), only
when that total is positive and below the threshold.  The second state
component records the rows converted. -/
def rook_loop (orc : Orc) (min_rook_length : ℚ)
    (convO : (ℕ → Finset ℕ) → AdjRow → (ℕ → Finset ℕ)) :
    List AdjRow → (ℕ → Finset ℕ) × List AdjRow → (ℕ → Finset ℕ) × List AdjRow
  | [], st => st
  | a :: as, st =>
    if 0 < orc.interLenO (st.1 a.g1) (st.1 a.g2)
        ∧ orc.interLenO (st.1 a.g1) (st.1 a.g2) < min_rook_length then
      rook_loop orc min_rook_length convO as (convO st.1 a, st.2 ++ [a])
    else
      rook_loop orc min_rook_length convO as st

/-- `small_rook_to_queen_jc` (lines 764-894) at selection granularity:
explode the adjacency components, keep the rows whose component length is
below the threshold (line 791), and run the conversion loop over them. -/
def small_rook_to_queen_jc (orc : Orc) (min_rook_length : ℚ)
    (convO : (ℕ → Finset ℕ) → AdjRow → (ℕ → Finset ℕ))
    (adj : List AdjRow) (geoms : ℕ → Finset ℕ) : (ℕ → Finset ℕ) × List AdjRow :=
  rook_loop orc min_rook_length convO
    (adj.filter (fun a => decide (a.len < min_rook_length))) (geoms, [])

/-- Geometries for the rook counterexample: two polygons. -/
def geomsR : ℕ → Finset ℕ :=
  fun i => if i = 0 then {0} else if i = 1 then {1} else ∅

/-- Oracle for the rook counterexample: the two polygons' total shared
boundary length is 5001 — a long component of length 5000 and a short one of
length 1. -/
def orcR : Orc :=
  { orcB with interLenO := fun a b =>
      if (a = {0} ∧ b = {1}) ∨ (a = {1} ∧ b = {0}) then 5001 else 0 }

/-- The exploded adjacency rows between the two polygons: one shared boundary
component of length 1 and one of length 5000. -/
def adjR : List AdjRow :=
  [⟨0, 1, 1⟩, ⟨0, 1, 5000⟩]

/-- The disk conversion for the rook counterexample; it is never reached. -/
def convR : (ℕ → Finset ℕ) → AdjRow → (ℕ → Finset ℕ) :=
  fun g _ => g

end Cells

/-- C1: partition property.  For every input dataset and every oracle
satisfying the contracts of the shapely primitives it stands for
(components partition their geometry, spatial queries return dataset
indices, partial fills split the hole), whenever `repair_gdf_jc` succeeds
the output geometries of two distinct polygons are disjoint — in the cell
model, sharing no cell, i.e. zero-area interior intersection. -/
theorem claim_C1_partition (orc : Cells.Orc) (idx : List ℕ) (poly : ℕ → Finset ℕ)
    (U : List ℕ) (close_gaps : Bool) (fuel : ℕ)
    (res : (ℕ → Finset ℕ) × List ℕ)
    (Hc : Cells.CompsC orc) (Hq : Cells.QueryC orc idx) (Hp : Cells.PfC orc)
    (Horig : ∀ i ∈ idx, 1 ≤ orc.ncompO (poly i))
    (hok : Cells.repair_gdf_jc orc idx poly U close_gaps fuel = .ok res) :
    ∀ i j, i ≠ j → Disjoint (res.1 i) (res.1 j) := by
  rw [Cells.repair_gdf_jc] at hok
  rcases hrec : Cells.reconstruct_from_overlap_tower_jc orc idx poly
      (Cells.building_blocks_jc idx poly U).1 with e | g1
  · simp only [hrec] at hok
    cases hok
  · simp only [hrec] at hok
    have hsep := Cells.reconstruct_sep orc idx poly U g1 hrec
    cases close_gaps with
    | false =>
      rw [if_neg Bool.false_ne_true] at hok
      simp only [] at hok
      exact (Cells.disc_repair_spec orc idx poly g1 res Hc Hq Horig hsep.2.2 hok).1
    | true =>
      rw [if_pos rfl] at hok
      rcases hcg : Cells.close_gaps_jc orc fuel g1 (Cells.building_blocks_jc idx poly U).2
          with e | g2
      · simp only [hcg] at hok
        cases hok
      · simp only [hcg] at hok
        have hsinv : Cells.SInv
            ((Cells.building_blocks_jc idx poly U).2.map Cells.Piece.cells) g1 :=
          ⟨hsep.1, hsep.2.1, fun s _ i => Finset.disjoint_empty_right s, hsep.2.2,
           fun _ _ _ => Finset.disjoint_empty_left _,
           fun _ _ _ => Finset.disjoint_empty_left _⟩
        rw [Cells.close_gaps_jc] at hcg
        have hpwg2 := Cells.close_gaps_loop_pw orc Hp fuel g1
          ((Cells.building_blocks_jc idx poly U).2.map Cells.Piece.cells) g2 hsinv hcg
        exact (Cells.disc_repair_spec orc idx poly g2 res Hc Hq Horig hpwg2 hok).1

/-- C1 witness: the pipeline run on two disjoint unit squares, with the
contracts discharged for the concrete oracle `orcB`; the two output
geometries are disjoint. -/
theorem claim_C1_partition_witness :
    Disjoint (Cells.resB.1 0) (Cells.resB.1 1) :=
  claim_C1_partition Cells.orcB [0, 1] Cells.polyB [0, 1] true 1 Cells.resB
    Cells.orcB_compsC Cells.orcB_queryC Cells.orcB_pfC (by decide) (by rfl)
    0 1 (by decide)

/-- C4: the claim says a contested piece sharing no positive-length boundary
with any owner is reported and the run continues.  In the code the report
branch (line 517) references the unbound name `multi_index`, so the run dies
with a `NameError` instead.  Failing input: two exactly coincident polygons
(cell model: both polygons are the single cell 0).  The whole region is one
degree-2 piece, no degree-1 piece exists, both accumulated geometries stay
empty, the spatial query over the empty geometries returns no candidate, and
`repair_gdf_jc` raises for every option setting. -/
theorem claim_C4_contested_piece_namerror (close_gaps : Bool) (fuel : ℕ) :
    Cells.repair_gdf_jc Cells.orcEx [0, 1] (fun _ => {0}) [0] close_gaps fuel
      = .error "NameError: name multi_index is not defined" := by
  rfl

/-- C4 witness: the failing run evaluated at concrete option values. -/
theorem claim_C4_contested_piece_namerror_witness :
    Cells.repair_gdf_jc Cells.orcEx [0, 1] (fun _ => {0}) [0] true 5
      = .error "NameError: name multi_index is not defined" :=
  claim_C4_contested_piece_namerror true 5

/-- C6: a hole whose boundary rows touch at most 3 distinct polygons (and at
least one) is merged whole — by the body of the per-hole loop, lines 562-577 —
into the touching polygon whose current boundary shares the greatest length
with the hole, and the hole is dropped from the working hole set of the round
(it is not carried into the kept list). -/
theorem claim_C6_small_hole_merged (orc : Cells.Orc) (h : Finset ℕ)
    (comps : List (ℕ × ℚ)) (st : Cells.CgRound)
    (hne : comps ≠ []) (hle : (comps.map Prod.fst).dedup.length ≤ 3) :
    ∃ t : ℕ, t ∈ comps.map Prod.fst ∧
      (∀ b ∈ comps, orc.bndLenO h (st.geoms b.1) ≤ orc.bndLenO h (st.geoms t)) ∧
      Cells.close_gaps_round orc [(h, comps)] st
        = .ok ⟨Cells.addTo st.geoms t h, st.kept, st.newHoles, true⟩ := by
  have hsne : comps.map (fun b => (b.1, orc.bndLenO h (st.geoms b.1))) ≠ [] := by
    intro hcon
    exact hne (List.map_eq_nil_iff.mp hcon)
  obtain ⟨m, hm, hmem, hmax⟩ :=
    Cells.pickMaxLast_spec (comps.map (fun b => (b.1, orc.bndLenO h (st.geoms b.1)))) hsne
  obtain ⟨b, hb, hbm⟩ := List.mem_map.mp hmem
  refine ⟨m.1, ?_, ?_, ?_⟩
  · have : m.1 = b.1 := by rw [← hbm]
    rw [this]
    exact List.mem_map_of_mem Prod.fst hb
  · intro c hc
    have hc2 := hmax (c.1, orc.bndLenO h (st.geoms c.1)) (List.mem_map_of_mem _ hc)
    have hm2 : m.2 = orc.bndLenO h (st.geoms m.1) := by
      rw [← hbm]
    simpa [hm2] using hc2
  · show Cells.close_gaps_round orc ((h, comps) :: []) st = _
    rw [Cells.close_gaps_round, if_pos hle]
    simp only [hm]
    rfl

/-- C6 witness: a concrete hole with two boundary rows touching two polygons. -/
theorem claim_C6_small_hole_merged_witness :
    ∃ t : ℕ, t ∈ ([(0, (1 : ℚ)), (1, 2)].map Prod.fst) ∧
      (∀ b ∈ [(0, (1 : ℚ)), (1, 2)],
        Cells.orcEx.bndLenO {5} ((Cells.CgRound.mk (fun _ => ∅) [] [] false).geoms b.1)
          ≤ Cells.orcEx.bndLenO {5} ((Cells.CgRound.mk (fun _ => ∅) [] [] false).geoms t)) ∧
      Cells.close_gaps_round Cells.orcEx [({5}, [(0, (1 : ℚ)), (1, 2)])]
          (Cells.CgRound.mk (fun _ => ∅) [] [] false)
        = .ok ⟨Cells.addTo (fun _ => ∅) t {5}, [], [], true⟩ :=
  claim_C6_small_hole_merged Cells.orcEx {5} [(0, (1 : ℚ)), (1, 2)]
    (Cells.CgRound.mk (fun _ => ∅) [] [] false) (by decide) (by decide)

/-- C9: component non-regression.  Under the shapely contracts that a
geometry whose type test says plain `Polygon` has at most one component and
that every original geometry has at least one, after the disconnection-repair
stage every dataset index either has a component count no greater than its
original one, or appears in the emitted warning list: the residual check of
lines 310-315 reports every still over-disconnected polygon. -/
theorem claim_C9_component_nonregression (orc : Cells.Orc) (idx : List ℕ)
    (origGeoms geoms : ℕ → Finset ℕ) (res : (ℕ → Finset ℕ) × List ℕ)
    (Hmono : ∀ s, orc.isMultiO s = false → orc.ncompO s ≤ 1)
    (Horig : ∀ i ∈ idx, 1 ≤ orc.ncompO (origGeoms i))
    (hok : Cells.disc_repair orc idx origGeoms geoms = .ok res) :
    ∀ i ∈ idx, orc.ncompO (res.1 i) ≤ orc.ncompO (origGeoms i) ∨ i ∈ res.2 := by
  rw [Cells.disc_repair] at hok
  rcases hgl : Cells.disc_gloop orc geoms origGeoms
      ((idx.filter (fun i => orc.isMultiO (geoms i))).filter
        (fun i => decide (orc.ncompO (origGeoms i) < orc.ncompO (geoms i))))
      (geoms, []) with e | s
  · simp only [hgl] at hok
    cases hok
  · simp only [hgl] at hok
    cases hok
    intro i hi
    by_cases hle : orc.ncompO (s.1 i) ≤ orc.ncompO (origGeoms i)
    · exact Or.inl hle
    · right
      have hlt : orc.ncompO (origGeoms i) < orc.ncompO (s.1 i) := Nat.not_le.mp hle
      have hmulti : orc.isMultiO (s.1 i) = true := by
        rcases Bool.eq_false_or_eq_true (orc.isMultiO (s.1 i)) with hm | hm
        · exact hm
        · have h1 := Hmono (s.1 i) hm
          have h2 := Horig i hi
          omega
      refine List.mem_append.mpr (Or.inr ?_)
      refine List.mem_filter.mpr ⟨hi, ?_⟩
      simp [hmulti, hlt]

/-- C9 witness: the disconnection-repair stage on two disjoint unit squares,
with no over-disconnected polygon; index 0 keeps its component count. -/
theorem claim_C9_component_nonregression_witness :
    Cells.orcB.ncompO ((Cells.polyB, ([] : List ℕ)).1 0)
        ≤ Cells.orcB.ncompO (Cells.polyB 0)
      ∨ (0 : ℕ) ∈ (Cells.polyB, ([] : List ℕ)).2 :=
  claim_C9_component_nonregression Cells.orcB [0, 1] Cells.polyB Cells.polyB
    (Cells.polyB, []) Cells.orcB_mono (by decide) (by rfl) 0 (by decide)

/-- C2 (amended): total area conservation holds with the two option cases the
other way around from the claim, and with "sum of input areas" replaced by the
area of the union of the inputs.  Under the oracle contracts, on a
duplicate-free index whose polygons lie in the covered region, and when no
polygon is disconnected by the order-1 refinement (the `disc0 = []`
hypothesis: otherwise the stale `geometries_disconnected_df` copy of line 449
can drop main-pass pieces), a successful run satisfies: with
`close_gaps = false` the total output area is the area of the union of the
inputs (holes stay unfilled), and with `close_gaps = true` it is that union
plus the total hole area (holes are merged into polygons). -/
theorem claim_C2_area_conservation (orc : Cells.Orc) (idx : List ℕ)
    (poly : ℕ → Finset ℕ) (U : List ℕ) (close_gaps : Bool) (fuel : ℕ)
    (res : (ℕ → Finset ℕ) × List ℕ)
    (Hc : Cells.CompsC orc) (Hq : Cells.QueryC orc idx) (Hp : Cells.PfC orc)
    (Hpfi : Cells.PfIdxC orc idx) (Hhb : Cells.HbC orc idx)
    (Horig : ∀ i ∈ idx, 1 ≤ orc.ncompO (poly i))
    (hnd : idx.Nodup) (hpolyU : ∀ i ∈ idx, poly i ⊆ U.toFinset)
    (hd0 : idx.filter (fun i => decide (orc.ncompO (poly i)
        < orc.ncompO (Cells.assignOrder1 (fun _ => ∅)
            (Cells.building_blocks_jc idx poly U).1.headI i))) = [])
    (hok : Cells.repair_gdf_jc orc idx poly U close_gaps fuel = .ok res) :
    Cells.sumCard idx res.1
      = if close_gaps
        then (Cells.unionAll idx poly
            ∪ Cells.holesU (((Cells.building_blocks_jc idx poly U).2).map
                Cells.Piece.cells)).card
        else (Cells.unionAll idx poly).card := by
  rw [Cells.repair_gdf_jc] at hok
  rcases hrec : Cells.reconstruct_from_overlap_tower_jc orc idx poly
      (Cells.building_blocks_jc idx poly U).1 with e | g1
  · simp only [hrec] at hok
    cases hok
  · simp only [hrec] at hok
    have hsep := Cells.reconstruct_sep orc idx poly U g1 hrec
    have hU1 : Cells.unionAll idx g1 = Cells.unionAll idx poly := by
      have h1 := Cells.reconstruct_union orc idx poly
        (Cells.building_blocks_jc idx poly U).1 g1 Hq
        (Cells.bb_headI_sole idx poly U) hd0 hrec
      rw [h1]
      exact Cells.tower_unionCells idx poly U hpolyU

    cases close_gaps with
    | false =>
      rw [if_neg Bool.false_ne_true] at hok ⊢
      simp only [] at hok
      have hdr := Cells.disc_repair_spec orc idx poly g1 res Hc Hq Horig hsep.2.2 hok
      rw [Cells.sumCard_eq_card_unionAll hdr.1 hnd, hdr.2, hU1]
    | true =>
      rw [if_pos rfl] at hok ⊢
      rcases hcg : Cells.close_gaps_jc orc fuel g1
          (Cells.building_blocks_jc idx poly U).2 with e | g2
      · simp only [hcg] at hok
        cases hok
      · simp only [hcg] at hok
        have hsinv : Cells.SInv
            ((Cells.building_blocks_jc idx poly U).2.map Cells.Piece.cells) g1 :=
          ⟨hsep.1, hsep.2.1, fun s _ i => Finset.disjoint_empty_right s, hsep.2.2,
           fun _ _ _ => Finset.disjoint_empty_left _,
           fun _ _ _ => Finset.disjoint_empty_left _⟩
        rw [Cells.close_gaps_jc] at hcg
        have hpwg2 := Cells.close_gaps_loop_pw orc Hp fuel g1
          ((Cells.building_blocks_jc idx poly U).2.map Cells.Piece.cells) g2 hsinv hcg
        have hU2 := Cells.close_gaps_loop_union orc idx Hp Hpfi Hhb fuel g1
          ((Cells.building_blocks_jc idx poly U).2.map Cells.Piece.cells) g2 hcg
        have hdr := Cells.disc_repair_spec orc idx poly g2 res Hc Hq Horig hpwg2 hok
        rw [Cells.sumCard_eq_card_unionAll hdr.1 hnd, hdr.2, hU2, hU1]

/-- C2 witness: the amended conservation applied to the pipeline run on two
disjoint unit squares with gap closing on. -/
theorem claim_C2_area_conservation_witness :
    Cells.sumCard [0, 1] Cells.resB.1
      = if true
        then (Cells.unionAll [0, 1] Cells.polyB
            ∪ Cells.holesU (((Cells.building_blocks_jc [0, 1] Cells.polyB [0, 1]).2).map
                Cells.Piece.cells)).card
        else (Cells.unionAll [0, 1] Cells.polyB).card :=
  claim_C2_area_conservation Cells.orcB [0, 1] Cells.polyB [0, 1] true 1 Cells.resB
    Cells.orcB_compsC Cells.orcB_queryC Cells.orcB_pfC Cells.orcB_pfIdxC Cells.orcB_hbC
    (by decide) (by decide) (by decide) (by rfl) (by rfl)

/-- C2 counterexample to the claim as written: two overlapping rectangles
(polygon 0 on cells 0-1, polygon 1 on cells 1-2, no hole) with
`close_gaps = false`.  The claim's `close_gaps = false` case predicts a total
output area equal to the sum of the input areas plus the hole area, 2 + 2 + 0
= 4; the run succeeds and returns total area 3 (the overlap cell is assigned
to exactly one polygon). -/
theorem claim_C2_area_conservation_counterexample :
    Cells.repair_gdf_jc Cells.orcB [0, 1] Cells.polyC [0, 1, 2] false 1 = .ok Cells.resC
      ∧ Cells.sumCard [0, 1] Cells.resC.1 = 3
      ∧ Cells.sumCard [0, 1] Cells.polyC
          + (Cells.holesU (((Cells.building_blocks_jc [0, 1] Cells.polyC [0, 1, 2]).2).map
              Cells.Piece.cells)).card = 4 :=
  ⟨rfl, by decide, by decide⟩

/-- C3 (amended): on every successful run the stages execute in the order
Arrangement Builder, Overlap Classifier, Reconstructor, then — when enabled —
the Gap Closer, then Disconnection Repair (and then the rook-to-queen
conversion when enabled; it is disabled here).  The claim has the last two
middle stages the other way around: in the code the optional gap closer
(lines 244-246) runs before the disconnection repair (lines 255-315). -/
theorem claim_C3_stage_order (orc : Cells.Orc) (U : List ℕ) (close_gaps : Bool)
    (fuel : ℕ) (df : Cells.Df) (res : Cells.Df × Cells.Df × List Cells.Stage)
    (hok : Cells.repair_gdf_jc_df orc U close_gaps fuel df = .ok res) :
    res.2.2 = [Cells.Stage.arrangement, Cells.Stage.classifier, Cells.Stage.reconstructor]
      ++ (if close_gaps then [Cells.Stage.gapCloser] else [])
      ++ [Cells.Stage.discRepair] := by
  rw [Cells.repair_gdf_jc_df] at hok
  rcases hrec : Cells.reconstruct_from_overlap_tower_jc orc df.idx
      (fun i => (Cells.flatten2d (df.geom i)).cells)
      (Cells.building_blocks_jc df.idx
        (fun i => (Cells.flatten2d (df.geom i)).cells) U).1 with e | g1
  · simp only [hrec] at hok
    cases hok
  · simp only [hrec] at hok
    rcases hcg : (if close_gaps then Cells.close_gaps_jc orc fuel g1
        (Cells.building_blocks_jc df.idx
          (fun i => (Cells.flatten2d (df.geom i)).cells) U).2
      else .ok g1) with e | g2
    · simp only [hcg] at hok
      cases hok
    · simp only [hcg] at hok
      rcases hdr : Cells.disc_repair orc df.idx
          (fun i => (df.geom i).cells) g2 with e | r
      · simp only [hdr] at hok
        cases hok
      · simp only [hdr] at hok
        cases hok
        cases close_gaps <;> rfl

/-- C3 witness: the traced run on the two disjoint unit squares with gap
closing on. -/
theorem claim_C3_stage_order_witness :
    Cells.resDf.2.2 = [Cells.Stage.arrangement, Cells.Stage.classifier,
        Cells.Stage.reconstructor]
      ++ (if true then [Cells.Stage.gapCloser] else [])
      ++ [Cells.Stage.discRepair] :=
  claim_C3_stage_order Cells.orcB [0, 1] true 1 Cells.dfB Cells.resDf rfl

/-- C3 counterexample to the order the claim states: with gap closing
enabled, the executed trace has the gap closer before the disconnection
repair, unlike the claimed order. -/
theorem claim_C3_stage_order_counterexample :
    Cells.resDf.2.2 ≠ Cells.spec_stage_trace true
      ∧ Cells.resDf.2.2 = [Cells.Stage.arrangement, Cells.Stage.classifier,
          Cells.Stage.reconstructor, Cells.Stage.gapCloser, Cells.Stage.discRepair]
      ∧ Cells.spec_stage_trace true = [Cells.Stage.arrangement, Cells.Stage.classifier,
          Cells.Stage.reconstructor, Cells.Stage.discRepair, Cells.Stage.gapCloser] :=
  ⟨by decide, by decide, by decide⟩

/-- C8 (amended): on every successful run the returned frame has the same
index as the input and carries every non-geometry attribute column through
unchanged — provided the input has no column named "num components orig" or
"num components refined".  The reconstruction stage writes those two working
columns with plain pandas assignments (lines 432-433) and deletes them at the
end (lines 522-523), so a user column bearing either reserved name is
destroyed rather than carried through. -/
theorem claim_C8_frame_attributes (orc : Cells.Orc) (U : List ℕ) (close_gaps : Bool)
    (fuel : ℕ) (df : Cells.Df) (res : Cells.Df × Cells.Df × List Cells.Stage)
    (hf1 : "num components orig" ∉ df.cols.map Prod.fst)
    (hf2 : "num components refined" ∉ df.cols.map Prod.fst)
    (hok : Cells.repair_gdf_jc_df orc U close_gaps fuel df = .ok res) :
    res.2.1.idx = df.idx ∧ res.2.1.cols = df.cols := by
  rw [Cells.repair_gdf_jc_df] at hok
  rcases hrec : Cells.reconstruct_from_overlap_tower_jc orc df.idx
      (fun i => (Cells.flatten2d (df.geom i)).cells)
      (Cells.building_blocks_jc df.idx
        (fun i => (Cells.flatten2d (df.geom i)).cells) U).1 with e | g1
  · simp only [hrec] at hok
    cases hok
  · simp only [hrec] at hok
    rcases hcg : (if close_gaps then Cells.close_gaps_jc orc fuel g1
        (Cells.building_blocks_jc df.idx
          (fun i => (Cells.flatten2d (df.geom i)).cells) U).2
      else .ok g1) with e | g2
    · simp only [hcg] at hok
      cases hok
    · simp only [hcg] at hok
      rcases hdr : Cells.disc_repair orc df.idx
          (fun i => (df.geom i).cells) g2 with e | r
      · simp only [hdr] at hok
        cases hok
      · simp only [hdr] at hok
        cases hok
        exact ⟨rfl, Cells.temp_cols_roundtrip hf1 hf2 _ _ df.idx (fun i => ⟨g1 i, false⟩)⟩

/-- C8 witness: the run on a frame with one user column "POP"; the output
keeps the index and the column. -/
theorem claim_C8_frame_attributes_witness :
    Cells.resDf.2.1.idx = Cells.dfB.idx ∧ Cells.resDf.2.1.cols = Cells.dfB.cols :=
  claim_C8_frame_attributes Cells.orcB [0, 1] true 1 Cells.dfB Cells.resDf
    (by decide) (by decide) rfl

/-- C8 counterexample to the claim as written: a frame whose user data has a
column named "num components orig".  The run succeeds, yet the output frame
has lost the column (the reconstruction stage overwrote it as its working
column and deleted it at the end), so not every non-geometry attribute column
is carried through. -/
theorem claim_C8_frame_attributes_counterexample :
    Cells.repair_gdf_jc_df Cells.orcB [0, 1] false 1 Cells.dfE = .ok Cells.resDfE
      ∧ Cells.dfE.cols.map Prod.fst = ["num components orig"]
      ∧ Cells.resDfE.2.1.cols.map Prod.fst = [] :=
  ⟨rfl, rfl, rfl⟩

/-- C10: the caller's dataframe is returned by the call exactly as it was
passed in — the copy at line 224 takes all mutation, including the forced 2-D
flattening of lines 227-229, which the output exhibits (all output geometries
are 2-D) while the caller's frame keeps its third dimension. -/
theorem claim_C10_input_unmutated (orc : Cells.Orc) (U : List ℕ) (close_gaps : Bool)
    (fuel : ℕ) (df : Cells.Df) (res : Cells.Df × Cells.Df × List Cells.Stage)
    (hok : Cells.repair_gdf_jc_df orc U close_gaps fuel df = .ok res) :
    res.1 = df ∧ ∀ i, (res.2.1.geom i).is3d = false := by
  rw [Cells.repair_gdf_jc_df] at hok
  rcases hrec : Cells.reconstruct_from_overlap_tower_jc orc df.idx
      (fun i => (Cells.flatten2d (df.geom i)).cells)
      (Cells.building_blocks_jc df.idx
        (fun i => (Cells.flatten2d (df.geom i)).cells) U).1 with e | g1
  · simp only [hrec] at hok
    cases hok
  · simp only [hrec] at hok
    rcases hcg : (if close_gaps then Cells.close_gaps_jc orc fuel g1
        (Cells.building_blocks_jc df.idx
          (fun i => (Cells.flatten2d (df.geom i)).cells) U).2
      else .ok g1) with e | g2
    · simp only [hcg] at hok
      cases hok
    · simp only [hcg] at hok
      rcases hdr : Cells.disc_repair orc df.idx
          (fun i => (df.geom i).cells) g2 with e | r
      · simp only [hdr] at hok
        cases hok
      · simp only [hdr] at hok
        cases hok
        exact ⟨rfl, fun i => rfl⟩

/-- C10 witness: the run on a frame with 3-D geometries; the caller's frame
comes back identical (still 3-D) and the output is flattened. -/
theorem claim_C10_input_unmutated_witness :
    Cells.resDf.1 = Cells.dfB ∧ (Cells.resDf.2.1.geom 0).is3d = false :=
  ⟨(claim_C10_input_unmutated Cells.orcB [0, 1] true 1 Cells.dfB Cells.resDf rfl).1,
   (claim_C10_input_unmutated Cells.orcB [0, 1] true 1 Cells.dfB Cells.resDf rfl).2 0⟩

/-- C7: the claim says every inter-polygon boundary shorter than
`min_rook_length` ends with a zero-length (single-point) shared boundary.
Failing input: polygons 0 and 1 share two boundary components, one of length
1 and one of length 5000, with threshold 10.  The length-1 component is the
only row selected (first conjunct), but the recheck at lines 798-801 compares
the pair's total current shared length 5001 — not the component's own
length — against the threshold, so the conversion is skipped: the run returns
the geometries unchanged with an empty converted list (second conjunct), and
the two polygons' shared boundary still has positive length afterwards
(third conjunct), with no warning either. -/
theorem claim_C7_rook_below_threshold_skipped :
    (Cells.adjR.filter (fun a => decide (a.len < 10))).length = 1
      ∧ Cells.small_rook_to_queen_jc Cells.orcR 10 Cells.convR Cells.adjR Cells.geomsR
          = (Cells.geomsR, [])
      ∧ Cells.orcR.interLenO
          ((Cells.small_rook_to_queen_jc Cells.orcR 10 Cells.convR
            Cells.adjR Cells.geomsR).1 0)
          ((Cells.small_rook_to_queen_jc Cells.orcR 10 Cells.convR
            Cells.adjR Cells.geomsR).1 1) ≠ 0 :=
  ⟨by decide, rfl, by decide⟩

end VtdMigration
